import Mathlib

/-!
Verification of the Erasmus reference-resolution core (`erasmus/data.py`).

The Python module builds a family of regular expressions from a static book
dataset and exposes parsing entry points (`VerseRange.from_string`,
`VerseRange.from_string_with_version`, `VerseRange.get_all_from_string`) plus
a registry (`get_book_data`, `get_books_for_mask`).

The regexes are composed with the `botus_receptus.re` helpers, which simply
concatenate raw regex fragments: `escape_all` literals joined by `either`
(ordered alternation `(?:a|b|...)`), `optional` (`(?:...)?`, greedy),
`one_or_more`/`any_number_of` over single-character classes (`\s`, `\d`,
`[a-zA-Z0-9]`, greedy with backtracking), `named_group`, `if_group`
(`(?(name)...)`), `DOT` = `\.`, `DASH` = `-`, `LEFT_BRACKET` = `\[`,
`RIGHT_BRACKET` = `\]`, `START` = `^`, `END` = `$`, and the `re.IGNORECASE`
flag.  Note in particular that in `_reference_re` the plain strings `'['`,
`DASH`, `'–'`, `'—'`, `']'` concatenate to the character class
`[-–—]` (one dash character), not to literal bracket characters.

The embedding below implements exactly this pattern family as a
backtracking matcher in continuation-passing style over `List Char`:
ordered alternation tries alternatives left to right, optional groups try
the present branch first, and single-character-class repetitions try the
longest repetition first, exactly as the Python `re` engine does.
Fidelity notes: the `\d`, `\s` and alphanumeric character classes are
modelled on ASCII; Python's Unicode tables extend them to further
characters that none of the claims involve.  `re.IGNORECASE` matching of
the grammar's ASCII literals is modelled faithfully, including CPython's
non-ASCII case equivalents: the engine also matches `'ı'` (U+0131) and
`'İ'` (U+0130) against `i`, `'ſ'` (U+017F) against `s` and `'K'` (U+212A)
against `k` (`ciMatch` below), while `str.lower()` (`lcs` below) folds
none of them into ASCII — so a matched book token can miss the
lower-cased registry maps, exactly as in the program.
-/

namespace Erasmus

/-- ASCII lower-casing of one character: `str.lower()` per character, and
also the regex engine's simple lowercase, on the ASCII range; every
non-ASCII character is left unchanged (in particular the already-lowercase
`'ı'` and `'ſ'`, which `str.lower()` also leaves unchanged). -/
def lcc (c : Char) : Char := c.toLower

/-- Lower-casing of a character list (Python `str.lower`). -/
def lcs (l : List Char) : List Char := l.map lcc

/-- The non-ASCII characters that CPython `re` with `IGNORECASE` (Unicode
mode) matches against an ASCII pattern letter `p` (taken lower-cased):
`'İ'` (U+0130) and `'K'` (U+212A, Kelvin sign) through the engine's simple
lowercase (`i`, `k`), and `'ı'` (U+0131) and `'ſ'` (U+017F) through the
extra case equivalences of `Lib/re/_casefix.py` (`i`, `s`). -/
def extraCase (p d : Char) : Bool :=
  (p = 'i' && (d = 'ı' || d = 'İ')) || (p = 's' && d = 'ſ') || (p = 'k' && d = 'K')

/-- `re.IGNORECASE` comparison of one input character `d` against one
pattern character `p` of the grammar's ASCII literals: equal lowercase, or
one of the engine's non-ASCII case equivalents of that letter.  This is
deliberately distinct from comparing `lcc` images: `str.lower()` maps none
of the `extraCase` characters into ASCII. -/
def ciMatch (p d : Char) : Bool := lcc d = lcc p || extraCase (lcc p) d

/-- `ciPreB a b`: the literal `a` matches, character by character under
`re.IGNORECASE` (`ciMatch`), a prefix of the input `b`. -/
def ciPreB : List Char → List Char → Bool
  | [], _ => true
  | _ :: _, [] => false
  | p :: ps, d :: ds => ciMatch p d && ciPreB ps ds

/-- The `\s` class (Python whitespace, ASCII part). -/
def isWs (c : Char) : Bool :=
  c = ' ' || c = '\t' || c = '\n' || c = '\r' || c = '\x0b' || c = '\x0c'

/-- The `\d` class (decimal digits, ASCII part). -/
def isDig (c : Char) : Bool := '0' ≤ c && c ≤ '9'

/-- ASCII letters. -/
def isLet (c : Char) : Bool := ('a' ≤ c && c ≤ 'z') || ('A' ≤ c && c ≤ 'Z')

/-- The `ALPHANUMERICS` class `[a-zA-Z0-9]` used for translation codes. -/
def isAlnum (c : Char) : Bool := isLet c || isDig c

/-- The character class `[-–—]` built in `_reference_re` from `'['`,
`DASH`, en dash, em dash, `']'`: a single separator character drawn from
dash, en dash, em dash. -/
def isDash (c : Char) : Bool := c = '-' || c = '–' || c = '—'

/-- Capture state of a match: one field per named group of the grammar
(`match.groupdict()`), plus the participation flag of the `bracket` group
consulted by `(?(bracket)...)`.  An `Option` field is `none` when the group
did not participate in the match. -/
structure Caps where
  book : List Char := []
  chapter_start : List Char := []
  verse_start : List Char := []
  chapter_end : Option (List Char) := none
  verse_end : Option (List Char) := none
  version : Option (List Char) := none
  bracket : Bool := false
deriving DecidableEq

/-- Result of a match attempt: final captures and the unconsumed suffix. -/
abbrev Res := Option (Caps × List Char)

/-- Continuation: rest of the pattern, applied to the unconsumed suffix. -/
abbrev K := List Char → Caps → Res

/-- A pattern piece in continuation-passing style. -/
abbrev P := List Char → Caps → K → Res

/-- Ordered choice on results: backtracking tries the left result first. -/
def ores : Res → Res → Res
  | some r, _ => some r
  | none, b => b

/-- Concatenation of two pattern pieces. -/
def pseq (p q : P) : P := fun rem caps k => p rem caps (fun rem1 caps1 => q rem1 caps1 k)

/-- A single character of a class. -/
def pchar (f : Char → Bool) : P := fun rem caps k =>
  match rem with
  | [] => none
  | c :: r => if f c then k r caps else none

/-- A literal, matched case-insensitively (`re.IGNORECASE`, `ciMatch` per
character). -/
def plit : List Char → P
  | [], rem, caps, k => k rem caps
  | _ :: _, [], _, _ => none
  | a :: as, c :: r, caps, k => if ciMatch a c then plit as r caps k else none

/-- Backtracking helper for greedy repetition: try the continuation after
`n` consumed characters, then after `n - 1`, ..., then after `0`. -/
def tryDrops (k : K) (caps : Caps) (rem : List Char) : Nat → Res
  | 0 => k rem caps
  | j + 1 => ores (k (rem.drop (j + 1)) caps) (tryDrops k caps rem j)

/-- Greedy `(?:c)*` over a single-character class: longest repetition
first, backtracking one character at a time. -/
def pstar (f : Char → Bool) : P := fun rem caps k =>
  tryDrops k caps rem ((rem.takeWhile f).length)

/-- Greedy `(?:c)+` over a single-character class. -/
def pplus (f : Char → Bool) : P := pseq (pchar f) (pstar f)

/-- Greedy `(?:...)?`: try the branch with the group present first. -/
def popt (p : P) : P := fun rem caps k => ores (p rem caps k) (k rem caps)

/-- Ordered alternation `(?:l1|l2|...)` over escaped literals. -/
def peitherLits : List (List Char) → P
  | [], _, _, _ => none
  | l :: ls, rem, caps, k => ores (plit l rem caps k) (peitherLits ls rem caps k)

/-- A named capturing group: on success, record the consumed span. -/
def pgroup (set : Caps → List Char → Caps) (p : P) : P := fun rem caps k =>
  p rem caps (fun rem1 caps1 => k rem1 (set caps1 (rem.take (rem.length - rem1.length))))

/-- Conditional group `(?(name)pattern)`: the pattern applies only when the
named group participated in the match; otherwise it matches the empty
string. -/
def pif (cond : Caps → Bool) (p : P) : P := fun rem caps k =>
  if cond caps then p rem caps k else k rem caps

def setBook (caps : Caps) (s : List Char) : Caps := { caps with book := s }

def setChapterStart (caps : Caps) (s : List Char) : Caps := { caps with chapter_start := s }

def setVerseStart (caps : Caps) (s : List Char) : Caps := { caps with verse_start := s }

def setChapterEnd (caps : Caps) (s : List Char) : Caps := { caps with chapter_end := some s }

def setVerseEnd (caps : Caps) (s : List Char) : Caps := { caps with verse_end := some s }

def setVersion (caps : Caps) (s : List Char) : Caps := { caps with version := some s }

def setBracket (caps : Caps) (_ : List Char) : Caps := { caps with bracket := true }

/-- Section classifier of a book: an integer bitmask or the literal `DC`. -/
inductive BookSection where
  | mask (n : Nat)
  | dc
deriving DecidableEq

/-- One record of the static book dataset (`BookDict`). -/
structure BookDict where
  name : List Char
  osis : List Char
  paratext : Option (List Char)
  alt : List (List Char)
  section_ : BookSection
deriving DecidableEq

/-- Modelled from the spec: the static dataset `data/books.json` is not part
of the sources under review (only `data.py`, which loads it, is).  Per the
spec it is an ordered list of book records (canonical name, OSIS code,
optional paratext code, alias list, section classifier that is an integer
bitmask or the literal `DC`), whose first Old Testament book is Genesis
with section value `1`, whose first New Testament book is Matthew with
section value `2`, with further books carrying generic per-book bits, with
deuterocanonical books tagged `DC`, with case-folded name/OSIS/alias sets
unique across entries, and with the alternation source ordered so that a
literal precedes every other literal of which it lists a proper prefix
later (longer/more-specific spellings first).  This concrete five-book
instance satisfies all of those stated constraints. -/
def genesisEntry : BookDict :=
  ⟨"Genesis".toList, "Gen".toList, some ("GEN".toList), ["Gn".toList, "Ge".toList], .mask 1⟩

def exodusEntry : BookDict :=
  ⟨"Exodus".toList, "Exod".toList, some ("EXO".toList), ["Exo".toList, "Ex".toList], .mask 4⟩

def matthewEntry : BookDict :=
  ⟨"Matthew".toList, "Matt".toList, some ("MAT".toList), ["Mt".toList], .mask 2⟩

def johnEntry : BookDict :=
  ⟨"John".toList, "John".toList, some ("JHN".toList), ["Jhn".toList, "Jn".toList], .mask 8⟩

def tobitEntry : BookDict := ⟨"Tobit".toList, "Tob".toList, none, ["Tb".toList], .dc⟩

def _books_data : List BookDict :=
  [genesisEntry, exodusEntry, matthewEntry, johnEntry, tobitEntry]

/-- `more_itertools.unique_everseen` (no key): drop elements already seen,
preserving first-seen order. -/
def uniqueEverseenAux (seen : List (List Char)) : List (List Char) → List (List Char)
  | [] => []
  | x :: xs =>
    if x ∈ seen then uniqueEverseenAux seen xs
    else x :: uniqueEverseenAux (x :: seen) xs

def uniqueEverseen (l : List (List Char)) : List (List Char) := uniqueEverseenAux [] l

/-- `chain.from_iterable([[name, osis] + alt for book in _books_data])`. -/
def allBookInputs : List (List Char) :=
  (_books_data.map (fun b => [b.name, b.osis] ++ b.alt)).flatten

/-- The alternation source of `_book_re`: the deduplicated book literals. -/
def allBookLits : List (List Char) := uniqueEverseen allBookInputs

/-- What a successful match guarantees about the `book` capture `u`: some
dataset literal of the same length matches it character-wise under
`re.IGNORECASE`, and its characters come from the input `rem`.  The
capture need not lower-case (`str.lower`) to a registry key: the
`extraCase` characters break that. -/
def bookCapOf (u rem : List Char) : Prop :=
  ∃ l ∈ allBookLits, l.length = u.length ∧ ciPreB l u = true ∧ ∀ c ∈ u, c ∈ rem

/-- Lookup in a model of a Python `dict` represented as an insertion list
with the most recent insertion first. -/
def dget {α : Type} (m : List (List Char × α)) (key : List Char) : Option α :=
  (m.find? (fun p => decide (p.1 = key))).map (fun p => p.2)

/-- `_book_input_map`: lower-cased name/OSIS/alias to canonical name.  The
Python loop assigns in dataset order; prepending each assignment and taking
the first hit reproduces the last-write-wins dict semantics. -/
def _book_input_map : List (List Char × List Char) :=
  _books_data.foldl
    (fun m b => ([b.name, b.osis] ++ b.alt).foldl (fun m i => (lcs i, b.name) :: m) m) []

/-- `_book_data_map`: lower-cased name/OSIS/alias to book record. -/
def _book_data_map : List (List Char × BookDict) :=
  _books_data.foldl
    (fun m b => ([b.name, b.osis] ++ b.alt).foldl (fun m i => (lcs i, b) :: m) m) []

/-- `_book_mask_map`: canonical name to section classifier. -/
def _book_mask_map : List (List Char × BookSection) :=
  _books_data.foldl (fun m b => (b.name, b.section_) :: m) []

/-- The two error kinds of the module (`BookNotUnderstoodError`,
`ReferenceNotUnderstoodError`), each carrying the offending input. -/
inductive Exc where
  | bookNotUnderstood (input : List Char)
  | referenceNotUnderstood (input : List Char)
deriving DecidableEq

/-- `get_book_data`: case-insensitive registry lookup. -/
def get_book_data (book_name_or_abbr : List Char) : Except Exc BookDict :=
  match dget _book_data_map (lcs book_name_or_abbr) with
  | none => .error (.bookNotUnderstood book_name_or_abbr)
  | some b => .ok b

/-- `get_books_for_mask`: bits `1` and `2` are sentinel whole-division
flags yielding the first OT/NT book; books whose own section value is `1`,
`2` or `DC` are skipped by the generic per-bit scan over the dataset. -/
def get_books_for_mask (book_mask : Nat) : List BookDict :=
  (if book_mask &&& 1 ≠ 0 then (dget _book_data_map ("genesis".toList)).toList else [])
    ++ (if book_mask &&& 2 ≠ 0 then (dget _book_data_map ("matthew".toList)).toList else [])
    ++ _books_data.filter (fun b =>
        match b.section_ with
        | .dc => false
        | .mask v => if v = 1 || v = 2 then false else book_mask &&& v != 0)

/-- `Verse`: chapter and verse, as parsed by `int()` from `\d+` captures. -/
structure Verse where
  chapter : Nat
  verse : Nat
deriving DecidableEq

/-- `VerseRange` with the fields filled by the `create` factory. -/
structure VerseRange where
  book : List Char
  start : Verse
  end_ : Option Verse
  version : Option (List Char)
  book_mask : BookSection
  osis : List Char
  paratext : Option (List Char)
deriving DecidableEq

instance {e a : Type} [DecidableEq e] [DecidableEq a] : DecidableEq (Except e a) :=
  fun x y =>
    match x, y with
    | .ok u, .ok v =>
      if h : u = v then isTrue (by rw [h]) else isFalse (fun he => h (by injection he))
    | .error u, .error v =>
      if h : u = v then isTrue (by rw [h]) else isFalse (fun he => h (by injection he))
    | .ok _, .error _ => isFalse (fun he => Except.noConfusion he)
    | .error _, .ok _ => isFalse (fun he => Except.noConfusion he)

/-- `int()` on a string of decimal digits. -/
def parseNat (l : List Char) : Nat := l.foldl (fun a c => a * 10 + (c.toNat - 48)) 0

def digitCh (n : Nat) : Char := Char.ofNat (48 + n)

def natToCharsAux : Nat → Nat → List Char
  | 0, _ => []
  | f + 1, n => if n < 10 then [digitCh n] else natToCharsAux f (n / 10) ++ [digitCh (n % 10)]

/-- Decimal rendering of a natural number (Python `f-string` formatting of
a nonnegative `int`); the fuel `n + 1` always suffices. -/
def natToChars (n : Nat) : List Char := natToCharsAux (n + 1) n

/-- `Verse.__str__`: `f'{chapter}:{verse}'`. -/
def Verse.toStr (v : Verse) : List Char := natToChars v.chapter ++ ':' :: natToChars v.verse

/-- `VerseRange.verses`: start, then `-verse` for a same-chapter end or
`-chapter:verse` for a cross-chapter end. -/
def VerseRange.verses (r : VerseRange) : List Char :=
  match r.end_ with
  | none => r.start.toStr
  | some e =>
    if e.chapter = r.start.chapter then r.start.toStr ++ '-' :: natToChars e.verse
    else r.start.toStr ++ '-' :: e.toStr

/-- `VerseRange.__str__`: `f'{book} {verses}'`. -/
def VerseRange.toStr (r : VerseRange) : List Char := r.book ++ ' ' :: r.verses

/-- `VerseRange.create`: resolve the book through the registry and fill
canonical name, section, OSIS and paratext codes. -/
def VerseRange.create (book : List Char) (start : Verse) (end_ : Option Verse)
    (version : Option (List Char)) : Except Exc VerseRange :=
  match get_book_data book with
  | .error e => .error e
  | .ok d => .ok ⟨d.name, start, end_, version, d.section_, d.osis, d.paratext⟩

/-- `_book_re`: the named `book` group over the deduplicated alternation,
followed by an optional literal dot. -/
def _book_re : P :=
  pseq (pgroup setBook (peitherLits allBookLits)) (popt (pchar (fun c => c = '.')))

/-- `_colon`: `\s* : \s*`. -/
def _colon : P :=
  pseq (pstar isWs) (pseq (pchar (fun c => c = ':')) (pstar isWs))

/-- The optional range suffix of `_reference_re`:
`\s* [-–—] \s* (?:(?P<chapter_end>\d+)\s*:\s*)? (?P<verse_end>\d+)`. -/
def _range_suffix : P :=
  pseq (pstar isWs)
    (pseq (pchar isDash)
      (pseq (pstar isWs)
        (pseq (popt (pseq (pgroup setChapterEnd (pplus isDig)) _colon))
          (pgroup setVerseEnd (pplus isDig)))))

/-- The part of `_reference_re` after the book token: whitespace,
`chapter_start`, colon, `verse_start`, optional range suffix. -/
def _ref_rest : P :=
  pseq (pplus isWs)
    (pseq (pgroup setChapterStart (pplus isDig))
      (pseq _colon
        (pseq (pgroup setVerseStart (pplus isDig))
          (popt _range_suffix))))

/-- `_reference_re`: book, whitespace, `chapter_start`, colon,
`verse_start`, optional range suffix. -/
def _reference_re : P := pseq _book_re _ref_rest

/-- `_reference_with_version_re`: the reference followed by an optional
`\s*` and alphanumeric `version` group. -/
def _reference_with_version_re : P :=
  pseq _reference_re (popt (pseq (pstar isWs) (pgroup setVersion (pplus isAlnum))))

/-- `_reference_or_bracketed_with_version_re`: optional `bracket` group
`\[ \s*`, the reference, then a conditional group that, only when the
bracket participated, allows `\s+ version` and requires `\s* \]`. -/
def _reference_or_bracketed_with_version_re : P :=
  pseq (popt (pgroup setBracket (pseq (pchar (fun c => c = '[')) (pstar isWs))))
    (pseq _reference_re
      (pif (fun caps => caps.bracket)
        (pseq (popt (pseq (pplus isWs) (pgroup setVersion (pplus isAlnum))))
          (pseq (pstar isWs) (pchar (fun c => c = ']'))))))

/-- `_bracketed_reference_with_version_re`:
`\[ \s* reference_with_version \s* \]`. -/
def _bracketed_reference_with_version_re : P :=
  pseq (pchar (fun c => c = '['))
    (pseq (pstar isWs)
      (pseq _reference_with_version_re
        (pseq (pstar isWs) (pchar (fun c => c = ']')))))

/-- The terminal continuation of the `^...$`-anchored variants applied via
`Pattern.match`: `$` accepts the end of the input or the position just
before a single final newline. -/
def kDollar : K := fun rem caps =>
  if rem = [] || rem = ['\n'] then some (caps, rem) else none

/-- `_search_reference_re.match(s)`: variant (a), anchored, no version. -/
def _search_reference_re (s : List Char) : Res := _reference_re s {} kDollar

/-- `_search_reference_with_version_re.match(s)`: variant (b), anchored. -/
def _search_reference_with_version_re (s : List Char) : Res :=
  _reference_with_version_re s {} kDollar

/-- `VerseRange.from_match`: materialize the captures of a match. -/
def VerseRange.from_match (caps : Caps) : Except Exc VerseRange :=
  let chapter_start_int := parseNat caps.chapter_start
  let start : Verse := ⟨chapter_start_int, parseNat caps.verse_start⟩
  let end_ : Option Verse :=
    match caps.verse_end with
    | none => none
    | some es =>
      let chapter_end_int :=
        match caps.chapter_end with
        | none => chapter_start_int
        | some cs => parseNat cs
      some ⟨chapter_end_int, parseNat es⟩
  VerseRange.create caps.book start end_ caps.version

/-- `VerseRange.from_string`. -/
def VerseRange.from_string (verse : List Char) : Except Exc VerseRange :=
  match _search_reference_re verse with
  | none => .error (.referenceNotUnderstood verse)
  | some (caps, _) => VerseRange.from_match caps

/-- `VerseRange.from_string_with_version`. -/
def VerseRange.from_string_with_version (verse : List Char) : Except Exc VerseRange :=
  match _search_reference_with_version_re verse with
  | none => .error (.referenceNotUnderstood verse)
  | some (caps, _) => VerseRange.from_match caps

/-- The terminal continuation of an unanchored search attempt. -/
def kAny : K := fun rem caps => some (caps, rem)

/-- One attempt of `pattern.search` at a given start position. -/
def runAt (p : P) (s : List Char) (pos : Nat) : Res := p (s.drop pos) {} kAny

/-- `pattern.search(s, pos)`: try positions `pos`, `pos + 1`, ... up to the
length of `s`; the countdown argument makes the recursion structural and
`s.length + 1 - pos` attempts cover every start position. -/
def searchAuxN (p : P) (s : List Char) : Nat → Nat → Option (Nat × Caps × Nat)
  | _, 0 => none
  | pos, left + 1 =>
    match runAt p s pos with
    | some (caps, rem1) => some (pos, caps, s.length - rem1.length)
    | none => searchAuxN p s (pos + 1) left

/-- `pattern.search(s, pos)`, returning match start, captures, match end. -/
def searchFrom (p : P) (s : List Char) (pos : Nat) : Option (Nat × Caps × Nat) :=
  searchAuxN p s pos (s.length + 1 - pos)

/-- The scanning loop of `get_all_from_string`: find a match, append the
materialized range or the captured error, resume at the match end.  The
fuel argument makes the recursion structural; every match consumes at
least one character, so the initial fuel `s.length + 1` is never
exhausted (`getAllAux_fuel_congr` below). -/
def getAllAux (p : P) (s : List Char) : Nat → Nat → List (Except Exc VerseRange)
  | _, 0 => []
  | pos, fuel + 1 =>
    match searchFrom p s pos with
    | none => []
    | some (_, caps, en) => VerseRange.from_match caps :: getAllAux p s en fuel

/-- The `lookup_pattern` selection of `get_all_from_string`: variant (d)
when `only_bracketed`, else variant (c). -/
def lookup_pattern (only_bracketed : Bool) : P :=
  if only_bracketed then _bracketed_reference_with_version_re
  else _reference_or_bracketed_with_version_re

/-- `VerseRange.get_all_from_string`. -/
def VerseRange.get_all_from_string (s : List Char) (only_bracketed : Bool) :
    List (Except Exc VerseRange) :=
  getAllAux (lookup_pattern only_bracketed) s 0 (s.length + 1)

/-- The list of successive non-overlapping matches the scanning loop
visits: (start, captures, end) triples, each search resuming at the end of
the previous match. -/
def scanMatchesAux (p : P) (s : List Char) : Nat → Nat → List (Nat × Caps × Nat)
  | _, 0 => []
  | pos, fuel + 1 =>
    match searchFrom p s pos with
    | none => []
    | some (st, caps, en) => (st, caps, en) :: scanMatchesAux p s en fuel

def scanMatches (p : P) (s : List Char) : List (Nat × Caps × Nat) :=
  scanMatchesAux p s 0 (s.length + 1)

/-- A string of decimal digits: nonempty with every character in `\d`. -/
def digitStr (l : List Char) : Prop := l ≠ [] ∧ ∀ c ∈ l, isDig c = true

/-- A literal consisting only of ASCII letters (every literal of the
modelled dataset is of this shape). -/
def lettersOnly (l : List Char) : Prop := ∀ c ∈ l, isLet c = true

/-- A pattern that, on success, consumes at least one character and leaves
a book capture engine-matched by a dataset literal with characters drawn
from the input.  Both scanning variants are of this kind. -/
def GoodPat (p : P) : Prop := ∀ rem caps k r, p rem caps k = some r →
  ∃ rem1 caps1, k rem1 caps1 = some r ∧ rem1.length < rem.length ∧
    bookCapOf caps1.book rem

/-- Modelled from the spec: the range-suffix grammar as §4.2 of the spec
words it, with the separator "enclosed in literal `[`/`]`" characters.
This is the spec's reading of source lines 65-75; the source itself
concatenates those strings into the character class `[-–—]`
(see `_range_suffix`).  Used only to compare the two readings. -/
def spec_range_suffix : P :=
  pseq (pstar isWs)
    (pseq (pchar (fun c => c = '['))
      (pseq (pchar isDash)
        (pseq (pchar (fun c => c = ']'))
          (pseq (pstar isWs)
            (pseq (popt (pseq (pgroup setChapterEnd (pplus isDig)) _colon))
              (pgroup setVerseEnd (pplus isDig)))))))

/-- Modelled from the spec: `_reference_re` with the spec-worded range
suffix substituted, for comparison with the source's grammar. -/
def spec_reference_re : P := pseq _book_re (pseq (pplus isWs)
  (pseq (pgroup setChapterStart (pplus isDig))
    (pseq _colon
      (pseq (pgroup setVerseStart (pplus isDig))
        (popt spec_range_suffix)))))

/-- Whether a pattern can consume the whole input exactly (no trailing
newline allowance): the reading of "the ENTIRE input matches". -/
def runExact (p : P) (s : List Char) : Res :=
  p s {} (fun rem caps => if rem = [] then some (caps, rem) else none)

/-- `a` is a case-insensitive textual prefix of `b`, under the engine's
`re.IGNORECASE` character equivalence (`ciMatch`). -/
abbrev ciPre (a b : List Char) : Prop := ciPreB a b = true

/-- `a` is a proper case-insensitive textual prefix of `b`. -/
abbrev properPre (a b : List Char) : Prop := ciPre a b ∧ a.length < b.length

/-- The alternation-order property the spec states: no literal is listed
before a strictly longer literal of which it is a (case-insensitive)
textual prefix. -/
abbrev OrderOK (lits : List (List Char)) : Prop :=
  List.Pairwise (fun x y => ¬ properPre x y) lits

/-- The book-token alternation applied on its own at a position, as a
standalone matcher (first alternative in order that matches). -/
def bookTokenMatch (rem : List Char) : Res := peitherLits allBookLits rem {} kAny

/-! ### Character facts -/

theorem char_le_iff {a b : Char} : a ≤ b ↔ a.toNat ≤ b.toNat := by
  rw [Char.le_def, UInt32.le_def, BitVec.le_def]
  exact Iff.rfl

theorem toNat_la : ('a' : Char).toNat = 97 := rfl

theorem toNat_lz : ('z' : Char).toNat = 122 := rfl

theorem toNat_uA : ('A' : Char).toNat = 65 := rfl

theorem toNat_uZ : ('Z' : Char).toNat = 90 := rfl

theorem toNat_ofNat_of_lt {n : Nat} (h : n < 55296) : (Char.ofNat n).toNat = n := by
  have hv : n.isValidChar := Or.inl h
  rw [Char.ofNat, dif_pos hv]
  simp [Char.ofNatAux, Char.toNat, UInt32.toNat]

theorem lcc_let {c : Char} (h : isLet c = true) : isLet (lcc c) = true := by
  unfold lcc Char.toLower
  simp only [isLet, Bool.or_eq_true, Bool.and_eq_true, decide_eq_true_eq, char_le_iff,
    toNat_la, toNat_lz, toNat_uA, toNat_uZ] at h ⊢
  rcases h with h | h
  · rw [if_neg]
    · left; exact h
    · simp only [ge_iff_le]
      intro hc
      omega
  · rw [if_pos]
    · left
      have h2 := toNat_ofNat_of_lt (n := c.toNat + 32) (by omega)
      omega
    · constructor <;> omega

theorem lcc_not_let {c : Char} (h : isLet c = false) : lcc c = c := by
  unfold lcc Char.toLower
  rw [if_neg]
  simp only [isLet, Bool.or_eq_false_iff, Bool.and_eq_false_iff, Bool.not_eq_true,
    decide_eq_false_iff_not, char_le_iff, not_le, toNat_la, toNat_lz, toNat_uA, toNat_uZ] at h
  intro hc
  rcases h.2 with h3 | h3 <;> omega

theorem ne_of_pred {p : Char → Bool} {c d : Char} (h : p c = true) (hd : p d = false) :
    c ≠ d := by
  intro he
  rw [he, hd] at h
  exact Bool.noConfusion h

theorem ws_not_let {c : Char} (h : isWs c = true) : isLet c = false := by
  simp only [isWs, Bool.or_eq_true, decide_eq_true_eq] at h
  rcases h with ((((h | h) | h) | h) | h) | h <;> subst h <;> decide

theorem let_not_ws {c : Char} (h : isLet c = true) : isWs c = false := by
  cases hw : isWs c
  · rfl
  · rw [ws_not_let hw] at h
    exact Bool.noConfusion h

theorem ws_not_dig {c : Char} (h : isWs c = true) : isDig c = false := by
  simp only [isWs, Bool.or_eq_true, decide_eq_true_eq] at h
  rcases h with ((((h | h) | h) | h) | h) | h <;> subst h <;> decide

theorem dig_not_ws {c : Char} (h : isDig c = true) : isWs c = false := by
  cases hw : isWs c
  · rfl
  · rw [ws_not_dig hw] at h
    exact Bool.noConfusion h

theorem lcc_eq_of_not_let {a b : Char} (ha : isLet a = true) (hb : isLet b = false)
    (h : lcc a = lcc b) : False := by
  rw [lcc_not_let hb] at h
  have := lcc_let ha
  rw [h] at this
  rw [this] at hb
  exact Bool.noConfusion hb

/-! ### Lower-casing and digit-string facts -/

theorem lcs_nil : lcs [] = [] := rfl

theorem lcs_cons {c : Char} {l : List Char} : lcs (c :: l) = lcc c :: lcs l := rfl

theorem lcs_append (a b : List Char) : lcs (a ++ b) = lcs a ++ lcs b := by
  simp [lcs]

theorem lcs_length (l : List Char) : (lcs l).length = l.length := by
  simp [lcs]

theorem lcs_take (n : Nat) (l : List Char) : lcs (l.take n) = (lcs l).take n := by
  simp [lcs, List.map_take]

theorem parseNat_append_digit (xs : List Char) (d : Char) :
    parseNat (xs ++ [d]) = parseNat xs * 10 + (d.toNat - 48) := by
  simp [parseNat, List.foldl_append]

theorem digitCh_isDig {m : Nat} (h : m < 10) : isDig (digitCh m) = true := by
  have ht : (Char.ofNat (48 + m)).toNat = 48 + m := toNat_ofNat_of_lt (by omega)
  simp only [isDig, digitCh, Bool.and_eq_true, decide_eq_true_eq, char_le_iff, ht]
  constructor
  · rw [show ('0' : Char).toNat = 48 from rfl]; omega
  · rw [show ('9' : Char).toNat = 57 from rfl]; omega

theorem digitCh_toNat {m : Nat} (h : m < 10) : (digitCh m).toNat = 48 + m :=
  toNat_ofNat_of_lt (by omega)

theorem natToCharsAux_spec : ∀ f n, n < f →
    natToCharsAux f n ≠ [] ∧ (∀ c ∈ natToCharsAux f n, isDig c = true) ∧
      parseNat (natToCharsAux f n) = n := by
  intro f
  induction f with
  | zero => intro n h; omega
  | succ f ih =>
    intro n h
    by_cases h10 : n < 10
    · rw [natToCharsAux, if_pos h10]
      refine ⟨by simp, ?_, ?_⟩
      · intro c hc
        simp only [List.mem_singleton] at hc
        subst hc
        exact digitCh_isDig h10
      · show parseNat ([] ++ [digitCh n]) = n
        rw [parseNat_append_digit, digitCh_toNat h10]
        simp [parseNat]
    · rw [natToCharsAux, if_neg h10]
      have hd : n / 10 < f := by omega
      obtain ⟨ih1, ih2, ih3⟩ := ih (n / 10) hd
      refine ⟨by simp, ?_, ?_⟩
      · intro c hc
        rcases List.mem_append.mp hc with hc | hc
        · exact ih2 c hc
        · simp only [List.mem_singleton] at hc
          subst hc
          exact digitCh_isDig (Nat.mod_lt _ (by omega))
      · rw [parseNat_append_digit, ih3, digitCh_toNat (Nat.mod_lt _ (by omega))]
        omega

theorem natToChars_digitStr (n : Nat) : digitStr (natToChars n) := by
  obtain ⟨h1, h2, _⟩ := natToCharsAux_spec (n + 1) n (by omega)
  exact ⟨h1, h2⟩

theorem parseNat_natToChars (n : Nat) : parseNat (natToChars n) = n :=
  (natToCharsAux_spec (n + 1) n (by omega)).2.2

/-! ### `IGNORECASE` character equivalence facts -/

theorem let_ascii {c : Char} (h : isLet c = true) : c.toNat < 128 := by
  simp only [isLet, Bool.or_eq_true, Bool.and_eq_true, decide_eq_true_eq, char_le_iff,
    toNat_la, toNat_lz, toNat_uA, toNat_uZ] at h
  rcases h with h | h <;> omega

theorem ciMatch_iff {a c : Char} :
    ciMatch a c = true ↔
      lcc c = lcc a ∨ ((lcc a = 'i' ∧ (c = 'ı' ∨ c = 'İ')) ∨ (lcc a = 's' ∧ c = 'ſ') ∨
        (lcc a = 'k' ∧ c = 'K')) := by
  simp only [ciMatch, extraCase, Bool.or_eq_true, Bool.and_eq_true, decide_eq_true_eq]
  tauto

theorem ciMatch_of_lcc {a c : Char} (h : lcc c = lcc a) : ciMatch a c = true :=
  ciMatch_iff.mpr (Or.inl h)

theorem ciMatch_ascii {a c : Char} (hc : c.toNat < 128) (h : ciMatch a c = true) :
    lcc c = lcc a := by
  rcases ciMatch_iff.mp h with h | (⟨_, h | h⟩ | ⟨_, h⟩ | ⟨_, h⟩)
  · exact h
  all_goals subst h; exact absurd hc (by decide)

theorem lcc_let_ne_special {a c : Char} (ha : isLet a = true)
    (hc : c = 'ı' ∨ c = 'İ' ∨ c = 'ſ' ∨ c = 'K') : lcc c ≠ lcc a := by
  have ha2 : isLet (lcc a) = true := lcc_let ha
  rcases hc with h | h | h | h <;> subst h <;> intro he <;> rw [← he] at ha2 <;>
    exact absurd ha2 (by decide)

theorem ciMatch_letter_space {a : Char} (ha : isLet a = true) : ciMatch a ' ' = false := by
  cases hm : ciMatch a ' '
  · rfl
  · exfalso
    rcases ciMatch_iff.mp hm with h | (⟨_, h | h⟩ | ⟨_, h⟩ | ⟨_, h⟩)
    · have ha2 : isLet (lcc a) = true := lcc_let ha
      rw [show lcc ' ' = ' ' from rfl] at h
      rw [← h] at ha2
      exact absurd ha2 (by decide)
    all_goals exact absurd h (by decide)

theorem ciPreB_le : ∀ {a b : List Char}, ciPreB a b = true → a.length ≤ b.length := by
  intro a
  induction a with
  | nil => intro b _; simp
  | cons x xs ih =>
    intro b h
    cases b with
    | nil => exact absurd h (by rw [ciPreB]; simp)
    | cons y ys =>
      rw [ciPreB, Bool.and_eq_true] at h
      have := ih h.2
      simp only [List.length_cons]
      omega

theorem ciPreB_take : ∀ {a b : List Char}, ciPreB a b = true →
    ciPreB a (b.take a.length) = true := by
  intro a
  induction a with
  | nil => intro b _; rfl
  | cons x xs ih =>
    intro b h
    cases b with
    | nil => exact absurd h (by rw [ciPreB]; simp)
    | cons y ys =>
      rw [ciPreB, Bool.and_eq_true] at h
      rw [List.length_cons, List.take_succ_cons, ciPreB, h.1, Bool.true_and]
      exact ih h.2

theorem ciPreB_of_lcs : ∀ {t u r : List Char}, lcs u = lcs t → ciPreB t (u ++ r) = true := by
  intro t
  induction t with
  | nil => intro u r _; rfl
  | cons a as ih =>
    intro u r hu
    cases u with
    | nil => exact absurd hu (by simp [lcs])
    | cons c u' =>
      rw [lcs_cons, lcs_cons] at hu
      injection hu with h1 h2
      rw [List.cons_append, ciPreB, ciMatch_of_lcc h1, Bool.true_and]
      exact ih h2

theorem lcs_of_ciPreB_ascii : ∀ {t u : List Char}, (∀ c ∈ u, c.toNat < 128) →
    t.length = u.length → ciPreB t u = true → lcs u = lcs t := by
  intro t
  induction t with
  | nil =>
    intro u _ hlen _
    cases u with
    | nil => rfl
    | cons _ _ => simp at hlen
  | cons a as ih =>
    intro u hascii hlen h
    cases u with
    | nil => simp at hlen
    | cons c u' =>
      rw [ciPreB, Bool.and_eq_true] at h
      rw [lcs_cons, lcs_cons, ciMatch_ascii (hascii c (by simp)) h.1,
        ih (fun d hd => hascii d (by simp [hd])) (by simpa using hlen) h.2]

theorem ciPreB_letters_space : ∀ {l u r' : List Char}, lettersOnly l → u.length < l.length →
    ciPreB l (u ++ ' ' :: r') = false := by
  intro l
  induction l with
  | nil => intro u r' _ h; simp at h
  | cons a as ih =>
    intro u r' hl hlen
    cases u with
    | nil =>
      rw [List.nil_append, ciPreB, ciMatch_letter_space (hl a (by simp)), Bool.false_and]
    | cons c u' =>
      rw [List.cons_append, ciPreB]
      cases hm : ciMatch a c
      · rw [Bool.false_and]
      · rw [Bool.true_and]
        exact ih (fun x hx => hl x (by simp [hx])) (by simpa using hlen)

theorem special_base {x b1 b2 : Char}
    (h1 : (b1 = 'i' ∧ (x = 'ı' ∨ x = 'İ')) ∨ (b1 = 's' ∧ x = 'ſ') ∨ (b1 = 'k' ∧ x = 'K'))
    (h2 : (b2 = 'i' ∧ (x = 'ı' ∨ x = 'İ')) ∨ (b2 = 's' ∧ x = 'ſ') ∨ (b2 = 'k' ∧ x = 'K')) :
    b1 = b2 := by
  have hx : x = 'ı' ∨ x = 'İ' ∨ x = 'ſ' ∨ x = 'K' := by tauto
  rcases hx with h | h | h | h <;> subst h <;>
    rcases h1 with ⟨e1, hx1⟩ | ⟨e1, hx1⟩ | ⟨e1, hx1⟩ <;>
    rcases h2 with ⟨e2, hx2⟩ | ⟨e2, hx2⟩ | ⟨e2, hx2⟩ <;>
    first
      | exact e1.trans e2.symm
      | (rcases hx1 with h | h <;> exact absurd h (by decide))
      | (rcases hx2 with h | h <;> exact absurd h (by decide))

theorem ciMatch_trans_ascii {a b c : Char} (ha : isLet a = true) (hb : isLet b = true)
    (h1 : ciMatch a c = true) (h2 : ciMatch b c = true) : ciMatch a b = true := by
  refine ciMatch_iff.mpr (Or.inl ?_)
  rcases ciMatch_iff.mp h1 with h1 | h1 <;> rcases ciMatch_iff.mp h2 with h2 | h2
  · exact h2.symm.trans h1
  · exfalso
    have hcs : c = 'ı' ∨ c = 'İ' ∨ c = 'ſ' ∨ c = 'K' := by
      rcases h2 with ⟨_, h | h⟩ | ⟨_, h⟩ | ⟨_, h⟩ <;> subst h <;> simp
    exact lcc_let_ne_special ha hcs h1
  · exfalso
    have hcs : c = 'ı' ∨ c = 'İ' ∨ c = 'ſ' ∨ c = 'K' := by
      rcases h1 with ⟨_, h | h⟩ | ⟨_, h⟩ | ⟨_, h⟩ <;> subst h <;> simp
    exact lcc_let_ne_special hb hcs h2
  · exact (special_base h1 h2).symm

theorem ciPreB_of_both : ∀ {a b rem : List Char}, lettersOnly a → lettersOnly b →
    ciPreB a rem = true → ciPreB b rem = true → a.length ≤ b.length →
    ciPreB a b = true := by
  intro a
  induction a with
  | nil => intro b rem _ _ _ _ _; rfl
  | cons x xs ih =>
    intro b rem hal hbl ha hb hab
    cases b with
    | nil => simp at hab
    | cons y ys =>
      cases rem with
      | nil => exact absurd ha (by rw [ciPreB]; simp)
      | cons d ds =>
        rw [ciPreB, Bool.and_eq_true] at ha hb
        rw [ciPreB, Bool.and_eq_true]
        refine ⟨ciMatch_trans_ascii (hal x (by simp)) (hbl y (by simp)) ha.1 hb.1, ?_⟩
        exact ih (fun c hc => hal c (by simp [hc])) (fun c hc => hbl c (by simp [hc]))
          ha.2 hb.2 (by simpa using hab)

theorem bookCapOf_mono {u r1 r2 : List Char} (hsub : ∀ c ∈ r1, c ∈ r2)
    (h : bookCapOf u r1) : bookCapOf u r2 := by
  obtain ⟨l, hl, hlen, hpre, hmem⟩ := h
  exact ⟨l, hl, hlen, hpre, fun c hc => hsub c (hmem c hc)⟩

/-! ### Matcher combinator lemmas -/

theorem ores_some {r : Caps × List Char} {b : Res} : ores (some r) b = some r := rfl

theorem ores_none {b : Res} : ores none b = b := rfl

theorem inv_ores {a b : Res} {r : Caps × List Char} (h : ores a b = some r) :
    a = some r ∨ (a = none ∧ b = some r) := by
  cases a with
  | none => exact Or.inr ⟨rfl, h⟩
  | some x => exact Or.inl h

theorem plit_eq (l : List Char) : ∀ (rem : List Char) (caps : Caps) (k : K),
    plit l rem caps k =
      if ciPreB l rem = true then k (rem.drop l.length) caps else none := by
  induction l with
  | nil =>
    intro rem caps k
    simp [plit, ciPreB]
  | cons a as ih =>
    intro rem caps k
    cases rem with
    | nil =>
      rw [plit, if_neg]
      rw [ciPreB]
      simp
    | cons c r =>
      rw [plit]
      by_cases hac : ciMatch a c = true
      · rw [if_pos hac, ih]
        have hcp : ciPreB (a :: as) (c :: r) = ciPreB as r := by
          rw [ciPreB, hac, Bool.true_and]
        rw [hcp, List.length_cons, List.drop_succ_cons]
      · rw [if_neg hac, if_neg]
        rw [ciPreB, Bool.and_eq_true]
        intro ⟨hh1, _⟩
        exact hac hh1

theorem tryDrops_top {k : K} {caps : Caps} {rem : List Char} {n : Nat}
    {r : Caps × List Char} (h : k (rem.drop n) caps = some r) :
    tryDrops k caps rem n = some r := by
  cases n with
  | zero => simpa [tryDrops] using h
  | succ j => rw [tryDrops, h]; rfl

theorem tryDrops_none {k : K} {caps : Caps} {rem : List Char} :
    ∀ {n : Nat}, (∀ j, j ≤ n → k (rem.drop j) caps = none) →
      tryDrops k caps rem n = none := by
  intro n
  induction n with
  | zero =>
    intro h
    rw [tryDrops]
    simpa using h 0 (by omega)
  | succ j ih =>
    intro h
    rw [tryDrops, h (j + 1) (by omega), ores_none]
    exact ih (fun i hi => h i (by omega))

theorem inv_tryDrops {k : K} {caps : Caps} {rem : List Char} :
    ∀ {n : Nat} {r : Caps × List Char}, tryDrops k caps rem n = some r →
      ∃ j, j ≤ n ∧ k (rem.drop j) caps = some r := by
  intro n
  induction n with
  | zero =>
    intro r h
    rw [tryDrops] at h
    exact ⟨0, by omega, by simpa using h⟩
  | succ j ih =>
    intro r h
    rw [tryDrops] at h
    rcases inv_ores h with h1 | ⟨_, h2⟩
    · exact ⟨j + 1, by omega, h1⟩
    · obtain ⟨i, hi, hk⟩ := ih h2
      exact ⟨i, by omega, hk⟩

theorem takeWhile_all_append {f : Char → Bool} {xs ys : List Char}
    (h1 : ∀ c ∈ xs, f c = true) (h2 : ys.takeWhile f = []) :
    (xs ++ ys).takeWhile f = xs := by
  induction xs with
  | nil => simpa using h2
  | cons a as ih =>
    rw [List.cons_append, List.takeWhile_cons, if_pos (h1 a (by simp))]
    rw [ih (fun c hc => h1 c (by simp [hc]))]

theorem pstar_nil {f : Char → Bool} {rem : List Char} {caps : Caps} {k : K}
    (h : rem.takeWhile f = []) : pstar f rem caps k = k rem caps := by
  rw [pstar, h]
  rfl

theorem pstar_sound {f : Char → Bool} {xs ys : List Char} {caps : Caps} {k : K}
    {r : Caps × List Char} (h1 : ∀ c ∈ xs, f c = true) (h2 : ys.takeWhile f = [])
    (hk : k ys caps = some r) : pstar f (xs ++ ys) caps k = some r := by
  rw [pstar, takeWhile_all_append h1 h2]
  exact tryDrops_top (by rwa [List.drop_left])

theorem pchar_cons {f : Char → Bool} {c : Char} {rest : List Char} {caps : Caps} {k : K}
    (h : f c = true) : pchar f (c :: rest) caps k = k rest caps := by
  simp [pchar, h]

theorem pchar_cons_neg {f : Char → Bool} {c : Char} {rest : List Char} {caps : Caps} {k : K}
    (h : f c = false) : pchar f (c :: rest) caps k = none := by
  simp [pchar, h]

theorem pchar_nil {f : Char → Bool} {caps : Caps} {k : K} : pchar f [] caps k = none := rfl

theorem pplus_sound {f : Char → Bool} {xs ys : List Char} {caps : Caps} {k : K}
    {r : Caps × List Char} (hne : xs ≠ []) (h1 : ∀ c ∈ xs, f c = true)
    (h2 : ys.takeWhile f = []) (hk : k ys caps = some r) :
    pplus f (xs ++ ys) caps k = some r := by
  cases xs with
  | nil => exact absurd rfl hne
  | cons c xs' =>
    rw [pplus, pseq, List.cons_append, pchar_cons (h1 c (by simp))]
    exact pstar_sound (fun d hd => h1 d (by simp [hd])) h2 hk

theorem inv_pchar {f : Char → Bool} {rem : List Char} {caps : Caps} {k : K}
    {r : Caps × List Char} (h : pchar f rem caps k = some r) :
    ∃ c rest, rem = c :: rest ∧ f c = true ∧ k rest caps = some r := by
  cases rem with
  | nil => exact absurd h (by simp [pchar])
  | cons c rest =>
    by_cases hf : f c = true
    · exact ⟨c, rest, rfl, hf, by rwa [pchar_cons hf] at h⟩
    · rw [pchar_cons_neg (by simpa using hf)] at h
      exact absurd h (by simp)

theorem inv_plit {l rem : List Char} {caps : Caps} {k : K} {r : Caps × List Char}
    (h : plit l rem caps k = some r) :
    l.length ≤ rem.length ∧ ciPreB l rem = true ∧
      k (rem.drop l.length) caps = some r := by
  rw [plit_eq] at h
  by_cases hc : ciPreB l rem = true
  · exact ⟨ciPreB_le hc, hc, by rwa [if_pos hc] at h⟩
  · rw [if_neg hc] at h
    exact absurd h (by simp)

theorem take_all_of_le_takeWhile {f : Char → Bool} :
    ∀ {l : List Char} {j : Nat}, j ≤ (l.takeWhile f).length → ∀ c ∈ l.take j, f c = true := by
  intro l
  induction l with
  | nil => intro j _ c hc; simp at hc
  | cons a as ih =>
    intro j hj c hc
    by_cases hf : f a = true
    · rw [List.takeWhile_cons, if_pos hf] at hj
      cases j with
      | zero => simp at hc
      | succ i =>
        rw [List.take_succ_cons] at hc
        rcases List.mem_cons.mp hc with hc | hc
        · rwa [hc]
        · exact ih (by simpa using hj) c hc
    · rw [List.takeWhile_cons, if_neg hf] at hj
      simp at hj
      subst hj
      simp at hc

theorem inv_pstar {f : Char → Bool} {rem : List Char} {caps : Caps} {k : K}
    {r : Caps × List Char} (h : pstar f rem caps k = some r) :
    ∃ j, j ≤ rem.length ∧ (∀ c ∈ rem.take j, f c = true) ∧
      k (rem.drop j) caps = some r := by
  rw [pstar] at h
  obtain ⟨j, hj, hk⟩ := inv_tryDrops h
  have hlen : (rem.takeWhile f).length ≤ rem.length := by
    simpa using List.Sublist.length_le (List.takeWhile_sublist f)
  exact ⟨j, by omega, take_all_of_le_takeWhile (by omega), hk⟩

theorem inv_pplus {f : Char → Bool} {rem : List Char} {caps : Caps} {k : K}
    {r : Caps × List Char} (h : pplus f rem caps k = some r) :
    ∃ j, 1 ≤ j ∧ j ≤ rem.length ∧ (∀ c ∈ rem.take j, f c = true) ∧
      k (rem.drop j) caps = some r := by
  rw [pplus, pseq] at h
  obtain ⟨c, rest, hrem, hf, hk⟩ := inv_pchar h
  obtain ⟨j, hj, hall, hk2⟩ := inv_pstar hk
  subst hrem
  refine ⟨j + 1, by omega, by simp; omega, ?_, by simpa using hk2⟩
  intro d hd
  rw [List.take_succ_cons] at hd
  rcases List.mem_cons.mp hd with hd | hd
  · rwa [hd]
  · exact hall d hd

theorem inv_popt {p : P} {rem : List Char} {caps : Caps} {k : K} {r : Caps × List Char}
    (h : popt p rem caps k = some r) :
    p rem caps k = some r ∨ k rem caps = some r := by
  rcases inv_ores h with h1 | ⟨_, h2⟩
  · exact Or.inl h1
  · exact Or.inr h2

theorem inv_peitherLits {lits : List (List Char)} {rem : List Char} {caps : Caps} {k : K}
    {r : Caps × List Char} (h : peitherLits lits rem caps k = some r) :
    ∃ l ∈ lits, plit l rem caps k = some r := by
  induction lits with
  | nil => exact absurd h (by simp [peitherLits])
  | cons l ls ih =>
    rw [peitherLits] at h
    rcases inv_ores h with h1 | ⟨_, h2⟩
    · exact ⟨l, by simp, h1⟩
    · obtain ⟨l', hl', hp⟩ := ih h2
      exact ⟨l', by simp [hl'], hp⟩

theorem inv_pif {cond : Caps → Bool} {p : P} {rem : List Char} {caps : Caps} {k : K}
    {r : Caps × List Char} (h : pif cond p rem caps k = some r) :
    (cond caps = true ∧ p rem caps k = some r) ∨
      (cond caps = false ∧ k rem caps = some r) := by
  rw [pif] at h
  by_cases hc : cond caps = true
  · exact Or.inl ⟨hc, by rwa [if_pos hc] at h⟩
  · exact Or.inr ⟨by simpa using hc, by rwa [if_neg hc] at h⟩

theorem popt_of_none {p : P} {rem : List Char} {caps : Caps} {k : K}
    (hp : p rem caps k = none) : popt p rem caps k = k rem caps := by
  rw [popt, hp, ores_none]

theorem popt_of_some {p : P} {rem : List Char} {caps : Caps} {k : K} {r : Caps × List Char}
    (hp : p rem caps k = some r) : popt p rem caps k = some r := by
  rw [popt, hp, ores_some]

/-! ### The ordered book alternation: exact-token matching -/

theorem letters_of_lcs : ∀ {u t : List Char}, lcs u = lcs t → lettersOnly t → lettersOnly u := by
  intro u
  induction u with
  | nil => intro t _ _ c hc; simp at hc
  | cons c u' ih =>
    intro t hu hlet
    cases t with
    | nil => exact absurd hu (by simp [lcs])
    | cons d t' =>
      rw [lcs_cons, lcs_cons] at hu
      injection hu with h1 h2
      intro e he
      rcases List.mem_cons.mp he with he | he
      · subst he
        cases hl : isLet e
        · exact absurd h1.symm (fun hh => lcc_eq_of_not_let (hlet d (by simp)) hl hh)
        · rfl
      · exact ih h2 (fun x hx => hlet x (by simp [hx])) e he

theorem lcc_space : lcc ' ' = ' ' := by decide

/-- One step of the alternation on an input `u ++ ' ' :: _` where `u` is a
case variant of the dataset literal `t`: a letters-only literal `l` either
is exactly `t` (and the match consumes exactly `u`), or its branch fails,
provided the continuation fails whenever the literal match ends strictly
inside `u`. -/
theorem plit_step {l u t rest : List Char} {caps : Caps} {k : K}
    (hl : lettersOnly l) (huq : lcs l = lcs t → l = t) (hu : lcs u = lcs t)
    (hulet : lettersOnly u) (hrest : ∃ r', rest = ' ' :: r')
    (hkfail : ∀ j, j < u.length → k (u.drop j ++ rest) caps = none) :
    plit l (u ++ rest) caps k = if l = t then k rest caps else none := by
  have hlen : u.length = t.length := by
    have hc := congrArg List.length hu
    simpa [lcs_length] using hc
  rw [plit_eq]
  rcases Nat.lt_trichotomy l.length u.length with hcase | hcase | hcase
  · by_cases hcond : ciPreB l (u ++ rest) = true
    · rw [if_pos hcond, List.drop_append_of_le_length (by omega), hkfail l.length hcase,
        if_neg]
      intro he
      subst he
      omega
    · rw [if_neg hcond, if_neg]
      intro he
      subst he
      omega
  · by_cases hcond : ciPreB l (u ++ rest) = true
    · have htake : (u ++ rest).take l.length = u := List.take_left' (by omega)
      have hcu : ciPreB l u = true := htake ▸ ciPreB_take hcond
      have hlu : lcs u = lcs l :=
        lcs_of_ciPreB_ascii (fun c hc => let_ascii (hulet c hc)) hcase hcu
      have hlt : l = t := huq (by rw [← hlu, hu])
      have hdrop : (u ++ rest).drop l.length = rest := List.drop_left' (by omega)
      rw [if_pos hcond, hdrop, if_pos hlt]
    · rw [if_neg hcond, if_neg]
      intro he
      subst he
      exact hcond (ciPreB_of_lcs hu)
  · obtain ⟨r', hr⟩ := hrest
    subst hr
    rw [show ciPreB l (u ++ ' ' :: r') = false from ciPreB_letters_space hl hcase]
    rw [if_neg (by simp), if_neg]
    intro he
    subst he
    omega

theorem peitherLits_fail {lits : List (List Char)} {u t rest : List Char} {caps : Caps}
    {k : K} (hlits : ∀ l ∈ lits, lettersOnly l) (huniq : ∀ l ∈ lits, lcs l = lcs t → l = t)
    (hu : lcs u = lcs t) (hulet : lettersOnly u) (hrest : ∃ r', rest = ' ' :: r')
    (hkfail : ∀ j, j < u.length → k (u.drop j ++ rest) caps = none)
    (hknone : k rest caps = none) :
    peitherLits lits (u ++ rest) caps k = none := by
  induction lits with
  | nil => rfl
  | cons l ls ih =>
    rw [peitherLits,
      plit_step (hlits l (by simp)) (huniq l (by simp)) hu hulet hrest hkfail]
    have htail := ih (fun x hx => hlits x (by simp [hx])) (fun x hx => huniq x (by simp [hx]))
    by_cases hlt : l = t
    · rw [if_pos hlt, hknone, ores_none]
      exact htail
    · rw [if_neg hlt, ores_none]
      exact htail

/-- The ordered alternation applied to `u ++ ' ' :: _` where `u` is a case
variant of the member literal `t` reduces to the continuation applied
exactly after `u`, provided the continuation fails whenever a literal
match ends strictly inside `u` (which the grammar's mandatory following
whitespace guarantees). -/
theorem peitherLits_exact {lits : List (List Char)} {u t rest : List Char} {caps : Caps}
    {k : K} (hlits : ∀ l ∈ lits, lettersOnly l) (huniq : ∀ l ∈ lits, lcs l = lcs t → l = t)
    (ht : t ∈ lits) (hu : lcs u = lcs t) (hulet : lettersOnly u)
    (hrest : ∃ r', rest = ' ' :: r')
    (hkfail : ∀ j, j < u.length → k (u.drop j ++ rest) caps = none) :
    peitherLits lits (u ++ rest) caps k = k rest caps := by
  induction lits with
  | nil => simp at ht
  | cons l ls ih =>
    rw [peitherLits,
      plit_step (hlits l (by simp)) (huniq l (by simp)) hu hulet hrest hkfail]
    by_cases hlt : l = t
    · rw [if_pos hlt]
      cases hres : k rest caps with
      | some r => exact ores_some
      | none =>
        rw [ores_none]
        exact peitherLits_fail (fun x hx => hlits x (by simp [hx]))
          (fun x hx => huniq x (by simp [hx])) hu hulet hrest hkfail hres
    · rw [if_neg hlt, ores_none]
      have hts : t ∈ ls := by
        rcases List.mem_cons.mp ht with h | h
        · exact absurd h.symm hlt
        · exact h
      exact ih (fun x hx => hlits x (by simp [hx])) (fun x hx => huniq x (by simp [hx])) hts

/-! ### Concrete registry facts -/

theorem allBookLits_letters : ∀ l ∈ allBookLits, lettersOnly l :=
  fun l hl c hc => (by decide : ∀ l ∈ allBookLits, ∀ c ∈ l, isLet c = true) l hl c hc

theorem allBookLits_lc_inj :
    ∀ t ∈ allBookLits, ∀ l ∈ allBookLits, lcs l = lcs t → l = t := by decide

theorem allBookLits_lookup :
    ∀ l ∈ allBookLits, (dget _book_data_map (lcs l)).isSome = true := by decide

theorem books_name_mem : ∀ b ∈ _books_data, b.name ∈ allBookLits := by decide

theorem create_name_lookup : ∀ b ∈ _books_data, dget _book_data_map (lcs b.name) = some b := by
  decide

theorem data_map_values : ∀ p ∈ _book_data_map, p.2 ∈ _books_data := by decide

/-! ### Reduction of `_book_re` on an exact token -/

theorem take_sub_append (a b : List Char) :
    (a ++ b).take ((a ++ b).length - b.length) = a := by
  rw [List.length_append, show a.length + b.length - b.length = a.length by omega]
  exact List.take_left a b

theorem book_re_exact {u t rest : List Char} {caps : Caps} {k : K}
    (ht : t ∈ allBookLits) (hu : lcs u = lcs t) (hrest : ∃ r', rest = ' ' :: r')
    (hkletter : ∀ c r1 caps1, isLet c = true → k (c :: r1) caps1 = none) :
    _book_re (u ++ rest) caps k = k rest { caps with book := u } := by
  have hulet : lettersOnly u := letters_of_lcs hu (allBookLits_letters t ht)
  simp only [_book_re, pseq, pgroup]
  rw [peitherLits_exact allBookLits_letters (allBookLits_lc_inj t ht) ht hu hulet hrest ?hkf]
  case hkf =>
    intro j hj
    have hdj : u.drop j = u[j] :: u.drop (j + 1) := List.drop_eq_getElem_cons hj
    have hletj : isLet u[j] = true := hulet _ (List.getElem_mem hj)
    rw [hdj, List.cons_append, popt]
    rw [pchar_cons_neg (by simp [ne_of_pred hletj (by decide : isLet '.' = false)])]
    rw [ores_none]
    exact hkletter _ _ _ hletj
  rw [take_sub_append]
  obtain ⟨r', hr⟩ := hrest
  subst hr
  rw [popt, pchar_cons_neg (by decide), ores_none]
  rfl

/-! ### Failure and success shapes of the range machinery -/

theorem dash_not_ws {d : Char} (h : isDash d = true) : isWs d = false := by
  simp only [isDash, Bool.or_eq_true, decide_eq_true_eq] at h
  rcases h with (h | h) | h <;> subst h <;> decide

theorem takeWhile_nil_head {f : Char → Bool} {c : Char} {l : List Char} (h : f c = false) :
    (c :: l).takeWhile f = [] := by
  rw [List.takeWhile_cons, if_neg (by simp [h])]

theorem nl_takeWhile_dig {nl : List Char} (hnl : nl = [] ∨ nl = ['\n']) :
    nl.takeWhile isDig = [] := by
  rcases hnl with h | h <;> subst h
  · rfl
  · exact takeWhile_nil_head (by decide)

theorem colon_fail {x : List Char} {caps : Caps} {k : K}
    (hx : x = [] ∨ (∃ c x', x = c :: x' ∧ isDig c = true) ∨ x = ['\n']) :
    _colon x caps k = none := by
  rcases hx with hx | ⟨c, x', hx, hc⟩ | hx
  · subst hx
    simp only [_colon, pseq]
    rw [pstar_nil List.takeWhile_nil]
    exact pchar_nil
  · subst hx
    simp only [_colon, pseq]
    rw [pstar_nil (takeWhile_nil_head (dig_not_ws hc))]
    exact pchar_cons_neg (by simp [ne_of_pred hc (by decide : isDig ':' = false)])
  · subst hx
    simp only [_colon, pseq, pstar]
    rw [show List.takeWhile isWs ['\n'] = ['\n'] by decide]
    simp only [List.length_cons, List.length_nil]
    rw [tryDrops, tryDrops]
    rw [show List.drop (0 + 1) ['\n'] = [] by rfl]
    rw [pchar_nil, ores_none, pchar_cons_neg (by decide)]

theorem chend_fail {dsv nl : List Char} {caps : Caps} {k : K}
    (hv : ∀ c ∈ dsv, isDig c = true) (hnl : nl = [] ∨ nl = ['\n']) :
    pseq (pgroup setChapterEnd (pplus isDig)) _colon (dsv ++ nl) caps k = none := by
  cases dsv with
  | nil =>
    simp only [pseq, pgroup, pplus, List.nil_append]
    rcases hnl with h | h <;> subst h
    · exact pchar_nil
    · exact pchar_cons_neg (by decide)
  | cons d ds' =>
    simp only [pseq, pgroup, pplus, List.cons_append]
    rw [pchar_cons (hv d (by simp))]
    rw [pstar, takeWhile_all_append (fun c hc => hv c (by simp [hc])) (nl_takeWhile_dig hnl)]
    apply tryDrops_none
    intro j hj
    rw [List.drop_append_of_le_length hj]
    cases hdrop : ds'.drop j with
    | nil =>
      rw [List.nil_append]
      exact colon_fail (by rcases hnl with h | h <;> subst h <;> simp)
    | cons e es =>
      rw [List.cons_append]
      refine colon_fail (Or.inr (Or.inl ⟨e, es ++ nl, rfl, ?_⟩))
      have hmem : e ∈ ds' := List.drop_subset j ds' (by rw [hdrop]; simp)
      exact hv e (by simp [hmem])

theorem range_fail_nl {nl : List Char} {caps : Caps} {k : K}
    (hnl : nl = [] ∨ nl = ['\n']) : _range_suffix nl caps k = none := by
  rcases hnl with h | h <;> subst h
  · simp only [_range_suffix, pseq]
    rw [pstar_nil List.takeWhile_nil]
    exact pchar_nil
  · simp only [_range_suffix, pseq, pstar]
    rw [show List.takeWhile isWs ['\n'] = ['\n'] by decide]
    simp only [List.length_cons, List.length_nil]
    rw [tryDrops, tryDrops]
    rw [show List.drop (0 + 1) ['\n'] = [] by rfl]
    rw [pchar_nil, ores_none, pchar_cons_neg (by decide)]

theorem range_same_sound {d : Char} {dsv nl : List Char} {caps : Caps} {k : K}
    {r : Caps × List Char} (hd : isDash d = true) (hv : digitStr dsv)
    (hnl : nl = [] ∨ nl = ['\n'])
    (hk : k nl { caps with verse_end := some dsv } = some r) :
    _range_suffix (d :: (dsv ++ nl)) caps k = some r := by
  obtain ⟨hne, hdig⟩ := hv
  obtain ⟨v, vs', hdsv⟩ : ∃ v vs', dsv = v :: vs' := by
    cases dsv with
    | nil => exact absurd rfl hne
    | cons v vs' => exact ⟨v, vs', rfl⟩
  simp only [_range_suffix, pseq]
  rw [pstar_nil (takeWhile_nil_head (dash_not_ws hd)), pchar_cons hd]
  rw [hdsv, List.cons_append,
    pstar_nil (takeWhile_nil_head (dig_not_ws (hdig v (by simp [hdsv])))), ← List.cons_append,
    ← hdsv]
  rw [popt_of_none (chend_fail hdig hnl)]
  simp only [pgroup]
  have hspan : (dsv ++ nl).take ((dsv ++ nl).length - nl.length) = dsv := take_sub_append _ _
  refine pplus_sound hne hdig (nl_takeWhile_dig hnl) ?_
  rw [hspan]
  exact hk

theorem range_cross_sound {d : Char} {dsc dsv nl : List Char} {caps : Caps} {k : K}
    {r : Caps × List Char} (hd : isDash d = true) (hc : digitStr dsc) (hv : digitStr dsv)
    (hnl : nl = [] ∨ nl = ['\n'])
    (hk : k nl { caps with chapter_end := some dsc, verse_end := some dsv } = some r) :
    _range_suffix (d :: (dsc ++ ':' :: (dsv ++ nl))) caps k = some r := by
  obtain ⟨hcne, hcdig⟩ := hc
  obtain ⟨hvne, hvdig⟩ := hv
  obtain ⟨e, es', hdsc⟩ : ∃ e es', dsc = e :: es' := by
    cases dsc with
    | nil => exact absurd rfl hcne
    | cons e es' => exact ⟨e, es', rfl⟩
  obtain ⟨v, vs', hdsv⟩ : ∃ v vs', dsv = v :: vs' := by
    cases dsv with
    | nil => exact absurd rfl hvne
    | cons v vs' => exact ⟨v, vs', rfl⟩
  simp only [_range_suffix, pseq]
  rw [pstar_nil (takeWhile_nil_head (dash_not_ws hd)), pchar_cons hd]
  rw [hdsc, List.cons_append,
    pstar_nil (takeWhile_nil_head (dig_not_ws (hcdig e (by simp [hdsc])))), ← List.cons_append,
    ← hdsc]
  apply popt_of_some
  simp only [pseq, pgroup]
  refine pplus_sound hcne hcdig (takeWhile_nil_head (by decide)) ?_
  rw [show (dsc ++ ':' :: (dsv ++ nl)).take ((dsc ++ ':' :: (dsv ++ nl)).length
        - (':' :: (dsv ++ nl)).length) = dsc from take_sub_append dsc (':' :: (dsv ++ nl))]
  simp only [_colon, pseq]
  rw [pstar_nil (takeWhile_nil_head (by decide)), pchar_cons (by decide)]
  rw [hdsv, List.cons_append,
    pstar_nil (takeWhile_nil_head (dig_not_ws (hvdig v (by simp [hdsv])))), ← List.cons_append,
    ← hdsv]
  refine pplus_sound hvne hvdig (nl_takeWhile_dig hnl) ?_
  rw [take_sub_append dsv nl]
  exact hk

theorem dash_not_dig {d : Char} (h : isDash d = true) : isDig d = false := by
  simp only [isDash, Bool.or_eq_true, decide_eq_true_eq] at h
  rcases h with (h | h) | h <;> subst h <;> decide

/-! ### Reduction of `_reference_re` on a well-formed reference -/

/-- On an input `u ++ " " ++ ds1 ++ ":" ++ ds2 ++ rest2` where `u` is a
case variant of a dataset literal `t` and `ds1`, `ds2` are digit strings,
the reference pattern reduces to its optional range suffix applied to
`rest2` with the `book`, `chapter_start` and `verse_start` groups
captured. -/
theorem reference_re_sound {u t ds1 ds2 rest2 : List Char} {caps : Caps} {k : K}
    {r : Caps × List Char} (ht : t ∈ allBookLits) (hu : lcs u = lcs t)
    (h1 : digitStr ds1) (h2 : digitStr ds2) (hrest2 : rest2.takeWhile isDig = [])
    (hk : popt _range_suffix rest2
        { caps with book := u, chapter_start := ds1, verse_start := ds2 } k = some r) :
    _reference_re (u ++ ' ' :: (ds1 ++ ':' :: (ds2 ++ rest2))) caps k = some r := by
  obtain ⟨h1ne, h1dig⟩ := h1
  obtain ⟨h2ne, h2dig⟩ := h2
  obtain ⟨c1, cs1, hds1⟩ : ∃ c1 cs1, ds1 = c1 :: cs1 := by
    cases ds1 with
    | nil => exact absurd rfl h1ne
    | cons c1 cs1 => exact ⟨c1, cs1, rfl⟩
  obtain ⟨c2, cs2, hds2⟩ : ∃ c2 cs2, ds2 = c2 :: cs2 := by
    cases ds2 with
    | nil => exact absurd rfl h2ne
    | cons c2 cs2 => exact ⟨c2, cs2, rfl⟩
  simp only [_reference_re, _ref_rest, pseq]
  rw [book_re_exact ht hu ⟨_, rfl⟩ ?hlet]
  case hlet =>
    intro c r1 caps1 hc
    simp only [pplus, pseq]
    exact pchar_cons_neg (let_not_ws hc)
  simp only [pplus, pseq]
  rw [pchar_cons (by decide)]
  rw [hds1, List.cons_append,
    pstar_nil (takeWhile_nil_head (dig_not_ws (h1dig c1 (by simp [hds1])))),
    ← List.cons_append, ← hds1]
  simp only [pgroup]
  refine pplus_sound h1ne h1dig (takeWhile_nil_head (by decide)) ?_
  rw [show (ds1 ++ ':' :: (ds2 ++ rest2)).take ((ds1 ++ ':' :: (ds2 ++ rest2)).length
        - (':' :: (ds2 ++ rest2)).length) = ds1 from take_sub_append ds1 _]
  simp only [_colon, pseq]
  rw [pstar_nil (takeWhile_nil_head (by decide)), pchar_cons (by decide)]
  rw [hds2, List.cons_append,
    pstar_nil (takeWhile_nil_head (dig_not_ws (h2dig c2 (by simp [hds2])))),
    ← List.cons_append, ← hds2]
  refine pplus_sound h2ne h2dig hrest2 ?_
  rw [take_sub_append ds2 rest2]
  exact hk

/-- `kDollar` accepts the empty remainder or a single final newline. -/
theorem kDollar_nl {nl : List Char} {caps : Caps} (hnl : nl = [] ∨ nl = ['\n']) :
    kDollar nl caps = some (caps, nl) := by
  rcases hnl with h | h <;> subst h <;> rfl

/-- The anchored no-version pattern on `Book C:V` (+ optional newline). -/
theorem search_reference_ok_plain {u t ds1 ds2 nl : List Char}
    (ht : t ∈ allBookLits) (hu : lcs u = lcs t) (h1 : digitStr ds1) (h2 : digitStr ds2)
    (hnl : nl = [] ∨ nl = ['\n']) :
    _search_reference_re (u ++ ' ' :: (ds1 ++ ':' :: (ds2 ++ nl))) =
      some (⟨u, ds1, ds2, none, none, none, false⟩, nl) := by
  rw [_search_reference_re]
  apply reference_re_sound ht hu h1 h2 (nl_takeWhile_dig hnl)
  rw [popt_of_none (range_fail_nl hnl)]
  exact kDollar_nl hnl

/-- The anchored no-version pattern on `Book C:V-V2` (+ optional newline). -/
theorem search_reference_ok_same {u t ds1 ds2 nl : List Char} {d : Char} {dsv : List Char}
    (ht : t ∈ allBookLits) (hu : lcs u = lcs t) (h1 : digitStr ds1) (h2 : digitStr ds2)
    (hd : isDash d = true) (hv : digitStr dsv) (hnl : nl = [] ∨ nl = ['\n']) :
    _search_reference_re (u ++ ' ' :: (ds1 ++ ':' :: (ds2 ++ (d :: (dsv ++ nl))))) =
      some (⟨u, ds1, ds2, none, some dsv, none, false⟩, nl) := by
  rw [_search_reference_re]
  apply reference_re_sound ht hu h1 h2 (takeWhile_nil_head (dash_not_dig hd))
  apply popt_of_some
  apply range_same_sound hd hv hnl
  exact kDollar_nl hnl

/-- The anchored no-version pattern on `Book C:V-C2:V2` (+ optional
newline). -/
theorem search_reference_ok_cross {u t ds1 ds2 nl : List Char} {d : Char}
    {dsc dsv : List Char} (ht : t ∈ allBookLits) (hu : lcs u = lcs t) (h1 : digitStr ds1)
    (h2 : digitStr ds2) (hd : isDash d = true) (hc : digitStr dsc) (hv : digitStr dsv)
    (hnl : nl = [] ∨ nl = ['\n']) :
    _search_reference_re (u ++ ' ' :: (ds1 ++ ':' :: (ds2 ++ (d :: (dsc ++ ':' :: (dsv ++ nl)))))) =
      some (⟨u, ds1, ds2, some dsc, some dsv, none, false⟩, nl) := by
  rw [_search_reference_re]
  apply reference_re_sound ht hu h1 h2 (takeWhile_nil_head (dash_not_dig hd))
  apply popt_of_some
  apply range_cross_sound hd hc hv hnl
  exact kDollar_nl hnl

/-! ### Evaluation of `from_match` -/

theorem from_match_plain {u ds1 ds2 : List Char} {b : BookDict}
    (hb : dget _book_data_map (lcs u) = some b) :
    VerseRange.from_match ⟨u, ds1, ds2, none, none, none, false⟩ =
      .ok ⟨b.name, ⟨parseNat ds1, parseNat ds2⟩, none, none, b.section_, b.osis, b.paratext⟩ := by
  simp [VerseRange.from_match, VerseRange.create, get_book_data, hb]

theorem from_match_same {u ds1 ds2 dsv : List Char} {b : BookDict}
    (hb : dget _book_data_map (lcs u) = some b) :
    VerseRange.from_match ⟨u, ds1, ds2, none, some dsv, none, false⟩ =
      .ok ⟨b.name, ⟨parseNat ds1, parseNat ds2⟩, some ⟨parseNat ds1, parseNat dsv⟩, none,
        b.section_, b.osis, b.paratext⟩ := by
  simp [VerseRange.from_match, VerseRange.create, get_book_data, hb]

theorem from_match_cross {u ds1 ds2 dsc dsv : List Char} {b : BookDict}
    (hb : dget _book_data_map (lcs u) = some b) :
    VerseRange.from_match ⟨u, ds1, ds2, some dsc, some dsv, none, false⟩ =
      .ok ⟨b.name, ⟨parseNat ds1, parseNat ds2⟩, some ⟨parseNat dsc, parseNat dsv⟩, none,
        b.section_, b.osis, b.paratext⟩ := by
  simp [VerseRange.from_match, VerseRange.create, get_book_data, hb]

theorem dget_mem_values {m : List (List Char × BookDict)} {key : List Char} {d : BookDict}
    (h : dget m key = some d) : ∃ p ∈ m, p.2 = d := by
  rw [dget] at h
  obtain ⟨p, hp, hp2⟩ := Option.map_eq_some'.mp h
  exact ⟨p, List.mem_of_find?_eq_some hp, hp2⟩

theorem from_string_of_search {s : List Char} {caps : Caps} {rem : List Char}
    (h : _search_reference_re s = some (caps, rem)) :
    VerseRange.from_string s = VerseRange.from_match caps := by
  rw [VerseRange.from_string, h]

theorem from_string_of_none {s : List Char} (h : _search_reference_re s = none) :
    VerseRange.from_string s = .error (.referenceNotUnderstood s) := by
  rw [VerseRange.from_string, h]

/-- C2: for every `VerseRange` constructed through the registry factory,
`from_string` applied to its textual rendering succeeds and returns the
same record with the version field cleared. -/
theorem c2_round_trip (bk : List Char) (st : Verse) (en : Option Verse)
    (ver : Option (List Char)) (r : VerseRange)
    (h : VerseRange.create bk st en ver = .ok r) :
    VerseRange.from_string r.toStr = .ok { r with version := none } := by
  rw [VerseRange.create] at h
  cases hgb : get_book_data bk with
  | error e =>
    rw [hgb] at h
    exact absurd h (by simp)
  | ok d =>
    rw [hgb] at h
    injection h with h
    have hd : dget _book_data_map (lcs bk) = some d := by
      rw [get_book_data] at hgb
      cases hq : dget _book_data_map (lcs bk) with
      | none =>
        rw [hq] at hgb
        exact absurd hgb (by simp)
      | some b =>
        rw [hq] at hgb
        injection hgb with hgb
        rw [hgb]
    have hdmem : d ∈ _books_data := by
      obtain ⟨p, hp, hp2⟩ := dget_mem_values hd
      exact hp2 ▸ data_map_values p hp
    have hname : d.name ∈ allBookLits := books_name_mem d hdmem
    have hlk : dget _book_data_map (lcs d.name) = some d := create_name_lookup d hdmem
    subst h
    cases en with
    | none =>
      have hstr : VerseRange.toStr ⟨d.name, st, none, ver, d.section_, d.osis, d.paratext⟩ =
          d.name ++ ' ' :: (natToChars st.chapter ++ ':' :: (natToChars st.verse ++ [])) := by
        simp only [VerseRange.toStr, VerseRange.verses, Verse.toStr, List.append_nil]
      rw [hstr, from_string_of_search
        (search_reference_ok_plain hname rfl (natToChars_digitStr _) (natToChars_digitStr _)
          (Or.inl rfl))]
      rw [from_match_plain hlk, parseNat_natToChars, parseNat_natToChars]
    | some e =>
      by_cases hch : e.chapter = st.chapter
      · have hstr : VerseRange.toStr ⟨d.name, st, some e, ver, d.section_, d.osis,
            d.paratext⟩ = d.name ++ ' ' :: (natToChars st.chapter ++ ':' ::
              (natToChars st.verse ++ ('-' :: (natToChars e.verse ++ [])))) := by
          simp only [VerseRange.toStr, VerseRange.verses, Verse.toStr, if_pos hch,
            List.append_nil, List.append_assoc, List.cons_append]
        rw [hstr, from_string_of_search
          (search_reference_ok_same hname rfl (natToChars_digitStr _) (natToChars_digitStr _)
            (by decide) (natToChars_digitStr _) (Or.inl rfl))]
        rw [from_match_same hlk, parseNat_natToChars, parseNat_natToChars,
          parseNat_natToChars]
        have he : (⟨st.chapter, e.verse⟩ : Verse) = e := by
          rw [← hch]
        rw [he]
      · have hstr : VerseRange.toStr ⟨d.name, st, some e, ver, d.section_, d.osis,
            d.paratext⟩ = d.name ++ ' ' :: (natToChars st.chapter ++ ':' ::
              (natToChars st.verse ++ ('-' :: (natToChars e.chapter ++ ':' ::
                (natToChars e.verse ++ []))))) := by
          simp only [VerseRange.toStr, VerseRange.verses, Verse.toStr, if_neg hch,
            List.append_nil, List.append_assoc, List.cons_append]
        rw [hstr, from_string_of_search
          (search_reference_ok_cross hname rfl (natToChars_digitStr _) (natToChars_digitStr _)
            (by decide) (natToChars_digitStr _) (natToChars_digitStr _) (Or.inl rfl))]
        rw [from_match_cross hlk, parseNat_natToChars, parseNat_natToChars,
          parseNat_natToChars, parseNat_natToChars]

/-! ### Inversion lemmas: facts about every successful match -/

theorem take_span {rem : List Char} {j : Nat} (hj : j ≤ rem.length) :
    rem.take (rem.length - (rem.drop j).length) = rem.take j := by
  rw [List.length_drop]
  congr 1
  omega

theorem digitStr_take {rem : List Char} {j : Nat} (h1 : 1 ≤ j) (hj : j ≤ rem.length)
    (hall : ∀ c ∈ rem.take j, isDig c = true) : digitStr (rem.take j) := by
  refine ⟨?_, hall⟩
  have hlen : (rem.take j).length = j := by
    rw [List.length_take]
    omega
  intro hnil
  rw [hnil] at hlen
  simp at hlen
  omega

theorem inv_colon {rem : List Char} {caps : Caps} {k : K} {r : Caps × List Char}
    (h : _colon rem caps k = some r) :
    ∃ rem1 : List Char, rem1.length ≤ rem.length ∧ k rem1 caps = some r := by
  simp only [_colon, pseq] at h
  obtain ⟨j1, hj1, _, h⟩ := inv_pstar h
  obtain ⟨c, rest, hrem, _, h⟩ := inv_pchar h
  obtain ⟨j2, hj2, _, h⟩ := inv_pstar h
  refine ⟨rest.drop j2, ?_, h⟩
  have h1 : (rem.drop j1).length ≤ rem.length := by
    rw [List.length_drop]
    omega
  have h2 : (rem.drop j1).length = rest.length + 1 := by
    rw [hrem]
    simp
  have h3 : (rest.drop j2).length ≤ rest.length := by
    rw [List.length_drop]
    omega
  omega

theorem inv_range {rem : List Char} {caps : Caps} {k : K} {r : Caps × List Char}
    (h : _range_suffix rem caps k = some r) :
    ∃ rem1 caps1, rem1.length ≤ rem.length ∧ k rem1 caps1 = some r ∧
      (∃ ds, caps1.verse_end = some ds ∧ digitStr ds) ∧
      (caps1.chapter_end = caps.chapter_end ∨
        ∃ ds, caps1.chapter_end = some ds ∧ digitStr ds) ∧
      caps1.book = caps.book ∧ caps1.chapter_start = caps.chapter_start ∧
      caps1.verse_start = caps.verse_start ∧ caps1.version = caps.version ∧
      caps1.bracket = caps.bracket := by
  simp only [_range_suffix, pseq, pgroup] at h
  obtain ⟨j1, hj1, _, h⟩ := inv_pstar h
  obtain ⟨c, rest2, hrem2, _, h⟩ := inv_pchar h
  obtain ⟨j3, hj3, _, h⟩ := inv_pstar h
  have hlen2 : rest2.length < rem.length := by
    have ha : (rem.drop j1).length ≤ rem.length := by
      rw [List.length_drop]; omega
    have hb : (rem.drop j1).length = rest2.length + 1 := by
      rw [hrem2]; simp
    omega
  have hlen3 : (rest2.drop j3).length ≤ rest2.length := by
    rw [List.length_drop]; omega
  set rem3 := rest2.drop j3 with hrem3
  rcases inv_popt h with h | h
  · -- chapter_end present
    obtain ⟨j4, hj41, hj4, hall4, h⟩ := inv_pplus h
    rw [take_span hj4] at h
    obtain ⟨rem5, hrem5, h⟩ := inv_colon h
    obtain ⟨j6, hj61, hj6, hall6, h⟩ := inv_pplus h
    rw [take_span hj6] at h
    refine ⟨rem5.drop j6, _, ?_, h, ⟨rem5.take j6, rfl, digitStr_take hj61 hj6 hall6⟩,
      Or.inr ⟨rem3.take j4, rfl, digitStr_take hj41 hj4 hall4⟩, rfl, rfl, rfl, rfl, rfl⟩
    have ha : (rem5.drop j6).length ≤ rem5.length := by
      rw [List.length_drop]; omega
    have hb : (rem3.drop j4).length ≤ rem3.length := by
      rw [List.length_drop]; omega
    omega
  · -- chapter_end absent
    obtain ⟨j6, hj61, hj6, hall6, h⟩ := inv_pplus h
    rw [take_span hj6] at h
    refine ⟨rem3.drop j6, _, ?_, h, ⟨rem3.take j6, rfl, digitStr_take hj61 hj6 hall6⟩,
      Or.inl rfl, rfl, rfl, rfl, rfl, rfl⟩
    have ha : (rem3.drop j6).length ≤ rem3.length := by
      rw [List.length_drop]; omega
    omega

theorem inv_ref_rest {rem : List Char} {caps : Caps} {k : K} {r : Caps × List Char}
    (h : _ref_rest rem caps k = some r) :
    ∃ rem1 caps1, k rem1 caps1 = some r ∧ rem1.length < rem.length ∧
      digitStr caps1.chapter_start ∧ digitStr caps1.verse_start ∧
      (caps1.chapter_end = caps.chapter_end ∨
        ∃ ds, caps1.chapter_end = some ds ∧ digitStr ds) ∧
      (caps1.verse_end = caps.verse_end ∨ ∃ ds, caps1.verse_end = some ds ∧ digitStr ds) ∧
      caps1.version = caps.version ∧ caps1.bracket = caps.bracket ∧
      caps1.book = caps.book := by
  simp only [_ref_rest, pseq, pgroup] at h
  obtain ⟨j1, hj11, hj1, _, h⟩ := inv_pplus h
  obtain ⟨j2, hj21, hj2, hall2, h⟩ := inv_pplus h
  rw [take_span hj2] at h
  obtain ⟨rem3, hrem3, h⟩ := inv_colon h
  obtain ⟨j4, hj41, hj4, hall4, h⟩ := inv_pplus h
  rw [take_span hj4] at h
  have hlenA : (rem.drop j1).length < rem.length := by
    rw [List.length_drop]; omega
  have hlenB : ((rem.drop j1).drop j2).length < (rem.drop j1).length := by
    rw [List.length_drop]; omega
  have hlenC : (rem3.drop j4).length < rem3.length := by
    rw [List.length_drop]; omega
  rcases inv_popt h with h | h
  · obtain ⟨rem5, caps5, hrem5, hk, hvend, hchend, hbook5, hcs5, hvs5, hver5, hbr5⟩ :=
      inv_range h
    refine ⟨rem5, caps5, hk, by omega, ?_, ?_, ?_, Or.inr hvend, hver5, hbr5, hbook5⟩
    · rw [hcs5]
      exact digitStr_take hj21 hj2 hall2
    · rw [hvs5]
      exact digitStr_take hj41 hj4 hall4
    · exact hchend
  · refine ⟨rem3.drop j4, _, h, by omega, digitStr_take hj21 hj2 hall2,
      digitStr_take hj41 hj4 hall4, Or.inl rfl, Or.inl rfl, rfl, rfl, rfl⟩

/-- Every successful match of `_reference_re` reaches the continuation
with a book capture that some dataset literal engine-matches character for
character (`bookCapOf`, with the capture's characters drawn from the
input), nonempty digit-string chapter and verse captures, end captures
that are either untouched or digit strings, untouched version and bracket
state, and a strictly shorter remainder. -/
theorem inv_reference_re {rem : List Char} {caps : Caps} {k : K} {r : Caps × List Char}
    (h : _reference_re rem caps k = some r) :
    ∃ rem1 caps1, k rem1 caps1 = some r ∧ rem1.length < rem.length ∧
      bookCapOf caps1.book rem ∧
      digitStr caps1.chapter_start ∧ digitStr caps1.verse_start ∧
      (caps1.chapter_end = caps.chapter_end ∨
        ∃ ds, caps1.chapter_end = some ds ∧ digitStr ds) ∧
      (caps1.verse_end = caps.verse_end ∨ ∃ ds, caps1.verse_end = some ds ∧ digitStr ds) ∧
      caps1.version = caps.version ∧ caps1.bracket = caps.bracket := by
  simp only [_reference_re, _book_re, pseq, pgroup] at h
  obtain ⟨l, hl, h⟩ := inv_peitherLits h
  obtain ⟨hll, hlcs, h⟩ := inv_plit h
  rw [take_span hll] at h
  have hlen0 : (rem.drop l.length).length ≤ rem.length := by
    rw [List.length_drop]; omega
  have hcap : bookCapOf (rem.take l.length) rem :=
    ⟨l, hl, by rw [List.length_take]; omega, ciPreB_take hlcs,
      fun c hc => List.take_subset _ _ hc⟩
  rcases inv_popt h with h | h
  · obtain ⟨c, rest, hrem, _, h⟩ := inv_pchar h
    obtain ⟨rem1, caps1, hk, hlen, hcs, hvs, hce, hve, hver, hbr, hbook⟩ := inv_ref_rest h
    have hrl : rest.length < (rem.drop l.length).length := by
      rw [hrem]; simp
    refine ⟨rem1, caps1, hk, by omega, ?_, hcs, hvs, hce, hve, hver, hbr⟩
    rw [hbook]
    exact hcap
  · obtain ⟨rem1, caps1, hk, hlen, hcs, hvs, hce, hve, hver, hbr, hbook⟩ := inv_ref_rest h
    refine ⟨rem1, caps1, hk, by omega, ?_, hcs, hvs, hce, hve, hver, hbr⟩
    rw [hbook]
    exact hcap

/-- Materialization fails only through the registry lookup: a lookup miss
gives exactly a `BookNotUnderstood` error carrying the book capture. -/
theorem from_match_err {caps : Caps}
    (hq : dget _book_data_map (lcs caps.book) = none) :
    VerseRange.from_match caps = .error (.bookNotUnderstood caps.book) := by
  simp [VerseRange.from_match, VerseRange.create, get_book_data, hq]

/-- A book capture whose `str.lower()` image is a registry key always
materializes. -/
theorem from_match_ok {caps : Caps}
    (hb : (dget _book_data_map (lcs caps.book)).isSome = true) :
    ∃ v, VerseRange.from_match caps = .ok v := by
  cases hq : dget _book_data_map (lcs caps.book) with
  | none =>
    rw [hq] at hb
    exact absurd hb (by simp)
  | some b =>
    simp only [VerseRange.from_match, VerseRange.create, get_book_data, hq]
    exact ⟨_, rfl⟩

/-- `from_match` either succeeds or fails with `BookNotUnderstood` on the
matched book token; no other error can arise. -/
theorem from_match_shape (caps : Caps) :
    (∃ v, VerseRange.from_match caps = .ok v) ∨
      VerseRange.from_match caps = .error (.bookNotUnderstood caps.book) := by
  cases hq : dget _book_data_map (lcs caps.book) with
  | none => exact Or.inr (from_match_err hq)
  | some b => exact Or.inl (from_match_ok (by rw [hq]; rfl))

theorem from_match_ok_lookup {caps : Caps} {r : VerseRange}
    (h : VerseRange.from_match caps = .ok r) :
    (dget _book_data_map (lcs caps.book)).isSome = true := by
  cases hq : dget _book_data_map (lcs caps.book) with
  | none =>
    rw [from_match_err hq] at h
    exact absurd h (by simp)
  | some b => rfl

/-- An ASCII book capture engine-matched by a dataset literal has that
literal's `str.lower()` image, so it resolves in the registry: the
engine's case equivalence and `str.lower()` agree on ASCII. -/
theorem bookCapOf_ascii_lookup {u rem : List Char} (hrem : ∀ c ∈ rem, c.toNat < 128)
    (hb : bookCapOf u rem) : (dget _book_data_map (lcs u)).isSome = true := by
  obtain ⟨l, hl, hlen, hpre, hmem⟩ := hb
  have hlu : lcs u = lcs l :=
    lcs_of_ciPreB_ascii (fun c hc => hrem c (hmem c hc)) hlen hpre
  rw [hlu]
  exact allBookLits_lookup l hl

theorem inv_reference_with_version {rem : List Char} {caps : Caps} {k : K}
    {r : Caps × List Char} (h : _reference_with_version_re rem caps k = some r) :
    ∃ rem1 caps1, k rem1 caps1 = some r ∧ rem1.length < rem.length ∧
      bookCapOf caps1.book rem ∧
      digitStr caps1.chapter_start ∧ digitStr caps1.verse_start ∧
      (caps1.chapter_end = caps.chapter_end ∨
        ∃ ds, caps1.chapter_end = some ds ∧ digitStr ds) ∧
      (caps1.verse_end = caps.verse_end ∨ ∃ ds, caps1.verse_end = some ds ∧ digitStr ds) ∧
      (caps1.version = caps.version ∨ ∃ vs, caps1.version = some vs) ∧
      caps1.bracket = caps.bracket := by
  simp only [_reference_with_version_re, pseq, pgroup] at h
  obtain ⟨rem1, caps1, h, hlen, hbook, hcs, hvs, hce, hve, hver, hbr⟩ := inv_reference_re h
  rcases inv_popt h with h | h
  · obtain ⟨j1, hj1, _, h⟩ := inv_pstar h
    obtain ⟨j2, hj21, hj2, _, h⟩ := inv_pplus h
    have hlen1 : ((rem1.drop j1).drop j2).length ≤ rem1.length := by
      simp only [List.length_drop]
      omega
    refine ⟨(rem1.drop j1).drop j2, _, h, by omega, hbook, hcs, hvs, hce, hve,
      Or.inr ⟨_, rfl⟩, hbr⟩
  · exact ⟨rem1, caps1, h, hlen, hbook, hcs, hvs, hce, hve, Or.inl hver, hbr⟩

theorem inv_or_bracketed {rem : List Char} {caps : Caps} {k : K} {r : Caps × List Char}
    (h : _reference_or_bracketed_with_version_re rem caps k = some r) :
    ∃ rem1 caps1, k rem1 caps1 = some r ∧ rem1.length < rem.length ∧
      bookCapOf caps1.book rem ∧
      digitStr caps1.chapter_start ∧ digitStr caps1.verse_start ∧
      (caps1.chapter_end = caps.chapter_end ∨
        ∃ ds, caps1.chapter_end = some ds ∧ digitStr ds) ∧
      (caps1.verse_end = caps.verse_end ∨ ∃ ds, caps1.verse_end = some ds ∧ digitStr ds) ∧
      (caps1.bracket = false → caps1.version = caps.version) := by
  simp only [_reference_or_bracketed_with_version_re, pseq] at h
  rcases inv_popt h with h | h
  · -- bracket group matched
    simp only [pgroup, pseq] at h
    obtain ⟨c, rest, hrem, _, h⟩ := inv_pchar h
    obtain ⟨j1, hj1, _, h⟩ := inv_pstar h
    obtain ⟨rem1, caps1, h, hlen, hbook0, hcs, hvs, hce, hve, hver, hbr⟩ := inv_reference_re h
    have hbook : bookCapOf caps1.book rem :=
      bookCapOf_mono
        (fun x hx => by rw [hrem]; exact List.mem_cons_of_mem _ (List.drop_subset _ _ hx))
        hbook0
    have hbr1 : caps1.bracket = true := hbr
    have hlenr : rem.length = rest.length + 1 := by
      rw [hrem]; simp
    have hlend : (rest.drop j1).length ≤ rest.length := by
      rw [List.length_drop]; omega
    rcases inv_pif h with ⟨_, h⟩ | ⟨hcond, h⟩
    · -- conditional active
      simp only [pseq] at h
      rcases inv_popt h with h | h
      · -- version present
        obtain ⟨j2, hj21, hj2, _, h⟩ := inv_pplus h
        simp only [pgroup] at h
        obtain ⟨jv, hjv1, hjv, _, h⟩ := inv_pplus h
        obtain ⟨j3, hj3, _, h⟩ := inv_pstar h
        obtain ⟨c2, rest2, hrem2, _, h⟩ := inv_pchar h
        refine ⟨rest2, _, h, ?_, hbook, hcs, hvs, hce, hve, ?_⟩
        · have ha : (((rem1.drop j2).drop jv).drop j3).length ≤ rem1.length := by
            simp only [List.length_drop]; omega
          have hb : (((rem1.drop j2).drop jv).drop j3).length = rest2.length + 1 := by
            rw [hrem2]; simp
          omega
        · intro hbf
          have hbf2 : caps1.bracket = false := hbf
          rw [hbr1] at hbf2
          exact Bool.noConfusion hbf2
      · -- version absent inside brackets
        obtain ⟨j3, hj3, _, h⟩ := inv_pstar h
        obtain ⟨c2, rest2, hrem2, _, h⟩ := inv_pchar h
        refine ⟨rest2, _, h, ?_, hbook, hcs, hvs, hce, hve, ?_⟩
        · have ha : (rem1.drop j3).length ≤ rem1.length := by
            rw [List.length_drop]; omega
          have hb : (rem1.drop j3).length = rest2.length + 1 := by
            rw [hrem2]; simp
          omega
        · intro hbf
          have hbf2 : caps1.bracket = false := hbf
          rw [hbr1] at hbf2
          exact Bool.noConfusion hbf2
    · rw [hbr1] at hcond
      exact absurd hcond (by simp)
  · -- bracket group skipped
    obtain ⟨rem1, caps1, h, hlen, hbook, hcs, hvs, hce, hve, hver, hbr⟩ := inv_reference_re h
    rcases inv_pif h with ⟨hcond, h⟩ | ⟨hcond, h⟩
    · -- bracket flag set: continuation requires the closing bracket
      simp only [pseq] at h
      rcases inv_popt h with h | h
      · obtain ⟨j2, hj21, hj2, _, h⟩ := inv_pplus h
        simp only [pgroup] at h
        obtain ⟨jv, hjv1, hjv, _, h⟩ := inv_pplus h
        obtain ⟨j3, hj3, _, h⟩ := inv_pstar h
        obtain ⟨c2, rest2, hrem2, _, h⟩ := inv_pchar h
        refine ⟨rest2, _, h, ?_, hbook, hcs, hvs, hce, hve, ?_⟩
        · have ha : (((rem1.drop j2).drop jv).drop j3).length ≤ rem1.length := by
            simp only [List.length_drop]; omega
          have hb : (((rem1.drop j2).drop jv).drop j3).length = rest2.length + 1 := by
            rw [hrem2]; simp
          omega
        · intro hbf
          have hbf2 : caps1.bracket = false := hbf
          rw [hcond] at hbf2
          exact Bool.noConfusion hbf2
      · obtain ⟨j3, hj3, _, h⟩ := inv_pstar h
        obtain ⟨c2, rest2, hrem2, _, h⟩ := inv_pchar h
        refine ⟨rest2, _, h, ?_, hbook, hcs, hvs, hce, hve, ?_⟩
        · have ha : (rem1.drop j3).length ≤ rem1.length := by
            rw [List.length_drop]; omega
          have hb : (rem1.drop j3).length = rest2.length + 1 := by
            rw [hrem2]; simp
          omega
        · intro hbf
          have hbf2 : caps1.bracket = false := hbf
          rw [hcond] at hbf2
          exact Bool.noConfusion hbf2
    · refine ⟨rem1, caps1, h, hlen, hbook, hcs, hvs, hce, hve, ?_⟩
      intro _
      exact hver

theorem inv_bracketed {rem : List Char} {caps : Caps} {k : K} {r : Caps × List Char}
    (h : _bracketed_reference_with_version_re rem caps k = some r) :
    ∃ rem1 caps1, k rem1 caps1 = some r ∧ rem1.length < rem.length ∧
      bookCapOf caps1.book rem ∧
      digitStr caps1.chapter_start ∧ digitStr caps1.verse_start ∧
      (caps1.chapter_end = caps.chapter_end ∨
        ∃ ds, caps1.chapter_end = some ds ∧ digitStr ds) ∧
      (caps1.verse_end = caps.verse_end ∨ ∃ ds, caps1.verse_end = some ds ∧ digitStr ds) := by
  simp only [_bracketed_reference_with_version_re, pseq] at h
  obtain ⟨c, rest, hrem, _, h⟩ := inv_pchar h
  obtain ⟨j1, hj1, _, h⟩ := inv_pstar h
  obtain ⟨rem1, caps1, h, hlen, hbook0, hcs, hvs, hce, hve, _, _⟩ :=
    inv_reference_with_version h
  have hbook : bookCapOf caps1.book rem :=
    bookCapOf_mono
      (fun x hx => by rw [hrem]; exact List.mem_cons_of_mem _ (List.drop_subset _ _ hx))
      hbook0
  obtain ⟨j3, hj3, _, h⟩ := inv_pstar h
  obtain ⟨c2, rest2, hrem2, _, h⟩ := inv_pchar h
  refine ⟨rest2, caps1, h, ?_, hbook, hcs, hvs, hce, hve⟩
  have ha : rem.length = rest.length + 1 := by
    rw [hrem]; simp
  have hb : (rest.drop j1).length ≤ rest.length := by
    rw [List.length_drop]; omega
  have hc : (rem1.drop j3).length ≤ rem1.length := by
    rw [List.length_drop]; omega
  have hd : (rem1.drop j3).length = rest2.length + 1 := by
    rw [hrem2]; simp
  omega

/-! ### Scanning: search positions, progress, fuel adequacy -/

theorem good_or_bracketed : GoodPat _reference_or_bracketed_with_version_re := by
  intro rem caps k r h
  obtain ⟨rem1, caps1, hk, hlen, hbook, _⟩ := inv_or_bracketed h
  exact ⟨rem1, caps1, hk, hlen, hbook⟩

theorem good_bracketed : GoodPat _bracketed_reference_with_version_re := by
  intro rem caps k r h
  obtain ⟨rem1, caps1, hk, hlen, hbook, _⟩ := inv_bracketed h
  exact ⟨rem1, caps1, hk, hlen, hbook⟩

theorem runAt_good {p : P} (hp : GoodPat p) {s : List Char} {pos : Nat} {caps : Caps}
    {rem1 : List Char} (h : runAt p s pos = some (caps, rem1)) :
    bookCapOf caps.book (s.drop pos) ∧ rem1.length < (s.drop pos).length := by
  rw [runAt] at h
  obtain ⟨rem', caps', hk, hlen, hbook⟩ := hp _ _ _ _ h
  rw [kAny] at hk
  injection hk with hk
  injection hk with hk1 hk2
  subst hk1
  subst hk2
  exact ⟨hbook, hlen⟩

theorem inv_searchAuxN {p : P} {s : List Char} :
    ∀ {left pos st : Nat} {caps : Caps} {en : Nat},
      searchAuxN p s pos left = some (st, caps, en) →
      pos ≤ st ∧ ∃ rem1, runAt p s st = some (caps, rem1) ∧ en = s.length - rem1.length := by
  intro left
  induction left with
  | zero => intro pos st caps en h; exact absurd h (by simp [searchAuxN])
  | succ l ih =>
    intro pos st caps en h
    rw [searchAuxN] at h
    cases hq : runAt p s pos with
    | some pr =>
      obtain ⟨caps2, rem2⟩ := pr
      rw [hq] at h
      injection h with h
      rw [Prod.mk.injEq] at h
      obtain ⟨h1, h23⟩ := h
      rw [Prod.mk.injEq] at h23
      obtain ⟨h2, h3⟩ := h23
      subst h1
      subst h2
      subst h3
      exact ⟨Nat.le_refl _, rem2, hq, rfl⟩
    | none =>
      rw [hq] at h
      obtain ⟨h1, h2⟩ := ih h
      exact ⟨by omega, h2⟩

theorem searchFrom_inv {p : P} {s : List Char} {pos st : Nat} {caps : Caps} {en : Nat}
    (h : searchFrom p s pos = some (st, caps, en)) :
    pos ≤ st ∧ ∃ rem1, runAt p s st = some (caps, rem1) ∧ en = s.length - rem1.length :=
  inv_searchAuxN h

/-- A successful search for a consuming pattern yields a match that starts
no earlier than the search position, consumes at least one character, and
ends within the input. -/
theorem searchFrom_bounds {p : P} (hp : GoodPat p) {s : List Char} {pos st : Nat}
    {caps : Caps} {en : Nat} (h : searchFrom p s pos = some (st, caps, en)) :
    pos ≤ st ∧ st < en ∧ en ≤ s.length := by
  obtain ⟨h1, rem1, hrun, hen⟩ := searchFrom_inv h
  obtain ⟨_, hlen⟩ := runAt_good hp hrun
  rw [List.length_drop] at hlen
  omega

theorem getAllAux_fuel_congr {p : P} (hp : GoodPat p) (s : List Char) :
    ∀ {f1 : Nat} {f2 pos : Nat}, s.length - pos < f1 → s.length - pos < f2 →
      getAllAux p s pos f1 = getAllAux p s pos f2 := by
  intro f1
  induction f1 with
  | zero => intro f2 pos h1 _; omega
  | succ g1 ih =>
    intro f2 pos h1 h2
    cases f2 with
    | zero => omega
    | succ g2 =>
      rw [getAllAux, getAllAux]
      cases hq : searchFrom p s pos with
      | none => rfl
      | some m =>
        obtain ⟨st, caps, en⟩ := m
        obtain ⟨hpos, hst, hen⟩ := searchFrom_bounds hp hq
        dsimp only
        rw [@ih g2 en (by omega) (by omega)]

theorem scanMatchesAux_fuel_congr {p : P} (hp : GoodPat p) (s : List Char) :
    ∀ {f1 : Nat} {f2 pos : Nat}, s.length - pos < f1 → s.length - pos < f2 →
      scanMatchesAux p s pos f1 = scanMatchesAux p s pos f2 := by
  intro f1
  induction f1 with
  | zero => intro f2 pos h1 _; omega
  | succ g1 ih =>
    intro f2 pos h1 h2
    cases f2 with
    | zero => omega
    | succ g2 =>
      rw [scanMatchesAux, scanMatchesAux]
      cases hq : searchFrom p s pos with
      | none => rfl
      | some m =>
        obtain ⟨st, caps, en⟩ := m
        obtain ⟨hpos, hst, hen⟩ := searchFrom_bounds hp hq
        dsimp only
        rw [@ih g2 en (by omega) (by omega)]

/-- The scanning loop really does resume at the end of each match: the
match list satisfies the loop equation with undiminished fuel. -/
theorem scanMatchesAux_step {p : P} (hp : GoodPat p) (s : List Char) {pos fuel : Nat}
    (hf : s.length - pos < fuel) :
    scanMatchesAux p s pos fuel =
      (match searchFrom p s pos with
       | none => []
       | some (st, caps, en) => (st, caps, en) :: scanMatchesAux p s en fuel) := by
  cases fuel with
  | zero => omega
  | succ g =>
    rw [scanMatchesAux]
    cases hq : searchFrom p s pos with
    | none => rfl
    | some m =>
      obtain ⟨st, caps, en⟩ := m
      obtain ⟨hpos, hst, hen⟩ := searchFrom_bounds hp hq
      dsimp only
      exact congrArg (List.cons (st, caps, en))
        (@scanMatchesAux_fuel_congr p hp s g (g + 1) en (by omega) (by omega))

theorem getAllAux_eq_map (p : P) (s : List Char) :
    ∀ (fuel pos : Nat), getAllAux p s pos fuel =
      (scanMatchesAux p s pos fuel).map (fun m => VerseRange.from_match m.2.1) := by
  intro fuel
  induction fuel with
  | zero => intro pos; rfl
  | succ g ih =>
    intro pos
    rw [getAllAux, scanMatchesAux]
    cases hq : searchFrom p s pos with
    | none => rfl
    | some m =>
      obtain ⟨st, caps, en⟩ := m
      dsimp only
      rw [List.map_cons, ih]

theorem scanMatchesAux_facts {p : P} (hp : GoodPat p) (s : List Char) :
    ∀ (fuel pos : Nat),
      List.Chain' (fun a b => a.2.2 ≤ b.1) (scanMatchesAux p s pos fuel) ∧
      ∀ m ∈ scanMatchesAux p s pos fuel, pos ≤ m.1 ∧ m.1 < m.2.2 ∧ m.2.2 ≤ s.length ∧
        ∃ rem1, runAt p s m.1 = some (m.2.1, rem1) ∧ m.2.2 = s.length - rem1.length := by
  intro fuel
  induction fuel with
  | zero => intro pos; exact ⟨List.chain'_nil, by simp [scanMatchesAux]⟩
  | succ g ih =>
    intro pos
    rw [scanMatchesAux]
    cases hq : searchFrom p s pos with
    | none => exact ⟨List.chain'_nil, by simp⟩
    | some m =>
      obtain ⟨st, caps, en⟩ := m
      obtain ⟨hpos, hst, hen⟩ := searchFrom_bounds hp hq
      obtain ⟨_, rem1, hrun, hrem1⟩ := searchFrom_inv hq
      obtain ⟨ihc, ihm⟩ := ih en
      dsimp only
      constructor
      · rw [List.chain'_cons']
        refine ⟨?_, ihc⟩
        intro b hb
        have hbm : b ∈ scanMatchesAux p s en g := List.mem_of_mem_head? hb
        exact (ihm b hbm).1
      · intro m hm
        rcases List.mem_cons.mp hm with hm | hm
        · subst hm
          exact ⟨hpos, hst, hen, rem1, hrun, hrem1⟩
        · obtain ⟨hm1, hm2, hm3, hm4⟩ := ihm m hm
          exact ⟨by omega, hm2, hm3, hm4⟩

theorem good_lookup : ∀ ob : Bool, GoodPat (lookup_pattern ob) := by
  intro ob
  cases ob
  · exact good_or_bracketed
  · exact good_bracketed

theorem getAll_eq_scan (s : List Char) (ob : Bool) :
    VerseRange.get_all_from_string s ob =
      (scanMatches (lookup_pattern ob) s).map (fun m => VerseRange.from_match m.2.1) := by
  rw [VerseRange.get_all_from_string, scanMatches, getAllAux_eq_map]

theorem runAt_unbracketed_version {s : List Char} {pos : Nat} {caps : Caps}
    {rem1 : List Char}
    (h : runAt _reference_or_bracketed_with_version_re s pos = some (caps, rem1)) :
    caps.bracket = false → caps.version = none := by
  rw [runAt] at h
  obtain ⟨rem', caps', hk, _, _, _, _, _, _, hv⟩ := inv_or_bracketed h
  rw [kAny] at hk
  injection hk with hk
  injection hk with hk1 hk2
  subst hk1
  subst hk2
  intro hbf
  exact hv hbf

/-! ### The claims -/

/-- C1: `get_all_from_string` is a total function (it never raises) that
scans the whole input left to right for non-overlapping matches of the
selected pattern, resuming each search at the end of the previous match;
for each match, in left-to-right order, it appends the materialization
result of that match (the `VerseRange` or the captured error); and it
returns the empty list when no match exists at all. -/
theorem c1_scan_structure (s : List Char) (ob : Bool) :
    VerseRange.get_all_from_string s ob =
      (scanMatches (lookup_pattern ob) s).map (fun m => VerseRange.from_match m.2.1) ∧
    (searchFrom (lookup_pattern ob) s 0 = none →
      VerseRange.get_all_from_string s ob = []) ∧
    scanMatches (lookup_pattern ob) s =
      (match searchFrom (lookup_pattern ob) s 0 with
       | none => []
       | some (st, caps, en) =>
         (st, caps, en) :: scanMatchesAux (lookup_pattern ob) s en (s.length + 1)) ∧
    List.Chain' (fun a b => a.2.2 ≤ b.1) (scanMatches (lookup_pattern ob) s) ∧
    ∀ m ∈ scanMatches (lookup_pattern ob) s, m.1 < m.2.2 ∧ m.2.2 ≤ s.length ∧
      ∃ rem1, runAt (lookup_pattern ob) s m.1 = some (m.2.1, rem1) ∧
        m.2.2 = s.length - rem1.length := by
  refine ⟨getAll_eq_scan s ob, ?_, ?_, ?_, ?_⟩
  · intro h
    rw [VerseRange.get_all_from_string, getAllAux, h]
  · rw [scanMatches, scanMatchesAux_step (good_lookup ob) s (by omega)]
  · exact (scanMatchesAux_facts (good_lookup ob) s (s.length + 1) 0).1
  · intro m hm
    obtain ⟨_, h2, h3, h4⟩ := (scanMatchesAux_facts (good_lookup ob) s (s.length + 1) 0).2 m hm
    exact ⟨h2, h3, h4⟩

theorem c1_scan_structure_witness :
    VerseRange.get_all_from_string ("no references here".toList) false = [] :=
  (c1_scan_structure ("no references here".toList) false).2.1 (by decide)

theorem c2_round_trip_witness :
    VerseRange.create ("gEn".toList) ⟨3, 16⟩ (some ⟨4, 2⟩) (some ("KJV".toList)) =
      .ok ⟨"Genesis".toList, ⟨3, 16⟩, some ⟨4, 2⟩, some ("KJV".toList), .mask 1,
        "Gen".toList, some ("GEN".toList)⟩ ∧
    VerseRange.from_string (VerseRange.toStr ⟨"Genesis".toList, ⟨3, 16⟩, some ⟨4, 2⟩,
        some ("KJV".toList), .mask 1, "Gen".toList, some ("GEN".toList)⟩) =
      .ok ⟨"Genesis".toList, ⟨3, 16⟩, some ⟨4, 2⟩, none, .mask 1, "Gen".toList,
        some ("GEN".toList)⟩ :=
  ⟨by decide, c2_round_trip ("gEn".toList) ⟨3, 16⟩ (some ⟨4, 2⟩) (some ("KJV".toList)) _
    (by decide)⟩

/-- C3 counterexample: scanning `"See [Frobnicate 9:9] for details"` with
`only_bracketed` false yields the empty list — not a one-element list
holding a `BookNotUnderstood` error, as the claim states. -/
theorem c3_counterexample :
    VerseRange.get_all_from_string ("See [Frobnicate 9:9] for details".toList) false = [] := by
  decide

/-- C3 (amended): scanning `"See [Frobnicate 9:9] for details"` yields the
empty sequence and does not raise: the book alternation contains only
registry spellings, so the pattern finds no match anywhere in the text. -/
theorem c3_amended :
    VerseRange.get_all_from_string ("See [Frobnicate 9:9] for details".toList) false = [] ∧
    searchFrom (lookup_pattern false) ("See [Frobnicate 9:9] for details".toList) 0 =
      none := by
  exact ⟨by decide, by decide⟩

/-- C5 counterexample: the range suffix does not require literal `[` and
`]` characters.  `"Genesis 3:16-18"`, which contains no brackets, parses
with end verse 18; the grammar as the claim words it (literal brackets
around the dash) cannot consume this input at all, while the source's
grammar consumes it entirely. -/
theorem c5_counterexample :
    VerseRange.from_string ("Genesis 3:16-18".toList) =
      .ok ⟨"Genesis".toList, ⟨3, 16⟩, some ⟨3, 18⟩, none, .mask 1, "Gen".toList,
        some ("GEN".toList)⟩ ∧
    runExact spec_reference_re ("Genesis 3:16-18".toList) = none ∧
    runExact _reference_re ("Genesis 3:16-18".toList) =
      some (⟨"Genesis".toList, ['3'], ['1', '6'], none, some ['1', '8'], none, false⟩,
        []) := by
  exact ⟨by decide, by decide, by decide⟩

/-- C5 (amended): the optional range suffix is a single separator
character drawn from dash, en dash, em dash (the `'['` and `']'` in the
source combine with the dashes into a regex character class, not literal
brackets), optionally whitespace-padded, followed by an optional
chapter-end and a mandatory verse-end integer; and a suffix with only a
verse-end gives the end `Verse` the start chapter. -/
theorem c5_amended (c v v2 : Nat) (d : Char) (hd : isDash d = true) :
    VerseRange.from_string
        ("Genesis".toList ++ ' ' ::
          (natToChars c ++ ':' :: (natToChars v ++ (d :: (natToChars v2 ++ []))))) =
      .ok ⟨"Genesis".toList, ⟨c, v⟩, some ⟨c, v2⟩, none, .mask 1, "Gen".toList,
        some ("GEN".toList)⟩ := by
  have hbg : dget _book_data_map (lcs ("Genesis".toList)) =
      some ⟨"Genesis".toList, "Gen".toList, some ("GEN".toList),
        ["Gn".toList, "Ge".toList], .mask 1⟩ := by decide
  rw [from_string_of_search (search_reference_ok_same (by decide) rfl
    (natToChars_digitStr _) (natToChars_digitStr _) hd (natToChars_digitStr _) (Or.inl rfl))]
  rw [from_match_same hbg, parseNat_natToChars, parseNat_natToChars,
    parseNat_natToChars]

theorem c5_amended_witness :
    isDash '–' = true ∧
    VerseRange.from_string
        ("Genesis".toList ++ ' ' ::
          (natToChars 3 ++ ':' :: (natToChars 16 ++ ('–' :: (natToChars 18 ++ []))))) =
      .ok ⟨"Genesis".toList, ⟨3, 16⟩, some ⟨3, 18⟩, none, .mask 1, "Gen".toList,
        some ("GEN".toList)⟩ :=
  ⟨by decide, c5_amended 3 16 18 '–' (by decide)⟩

/-- C8 counterexample: the grammar accepts the digit string `0`, so a
parsed `Verse` can have chapter `0` — strict positivity does not hold. -/
theorem c8_counterexample :
    ∃ r, VerseRange.from_string ("John 0:1".toList) = .ok r ∧ ¬ 1 ≤ r.start.chapter :=
  ⟨⟨"John".toList, ⟨0, 1⟩, none, none, .mask 8, "John".toList, some ("JHN".toList)⟩,
    by decide, by decide⟩

/-- C9 counterexample: the exception-capture branch of
`get_all_from_string` is reachable.  In `"Genesıs 1:1"` the `IGNORECASE`
engine matches the dotless `'ı'` (U+0131) against the literal `i` of
`Genesis`, but `str.lower()` leaves `'ı'` unchanged, so the matched book
token `"Genesıs"` misses the lower-cased registry map and the scan yields
exactly one `BookNotUnderstood` element. -/
theorem c9_counterexample :
    VerseRange.get_all_from_string ("Genesıs 1:1".toList) false =
      [Except.error (Exc.bookNotUnderstood ("Genesıs".toList))] := by
  decide

/-- C9 (amended): every element of `get_all_from_string` is either a
successful `VerseRange` or a `BookNotUnderstood` error carrying the
matched book token (a `ReferenceNotUnderstood` element, or any other
error, is impossible); and the error case needs a book token containing a
non-ASCII `IGNORECASE` case equivalent, so on every input made of ASCII
characters the exception branch is unreachable and every element is a
successful `VerseRange`. -/
theorem c9_amended (s : List Char) (ob : Bool) :
    (∀ x ∈ VerseRange.get_all_from_string s ob,
      (∃ v, x = Except.ok v) ∨ ∃ u, x = Except.error (Exc.bookNotUnderstood u)) ∧
    ((∀ c ∈ s, c.toNat < 128) →
      ∀ x ∈ VerseRange.get_all_from_string s ob, ∃ v, x = Except.ok v) := by
  constructor
  · intro x hx
    rw [getAll_eq_scan] at hx
    obtain ⟨m, hm, hmap⟩ := List.mem_map.mp hx
    rcases from_match_shape m.2.1 with ⟨v, hv⟩ | herr
    · exact Or.inl ⟨v, by rw [← hmap, hv]⟩
    · exact Or.inr ⟨m.2.1.book, by rw [← hmap, herr]⟩
  · intro hascii x hx
    rw [getAll_eq_scan] at hx
    obtain ⟨m, hm, hmap⟩ := List.mem_map.mp hx
    obtain ⟨_, _, _, rem1, hrun, _⟩ :=
      (scanMatchesAux_facts (good_lookup ob) s (s.length + 1) 0).2 m hm
    obtain ⟨hbook, _⟩ := runAt_good (good_lookup ob) hrun
    have hb2 : bookCapOf m.2.1.book s :=
      bookCapOf_mono (fun c hc => List.drop_subset _ _ hc) hbook
    obtain ⟨v, hv⟩ := from_match_ok (bookCapOf_ascii_lookup hascii hb2)
    exact ⟨v, by rw [← hmap, hv]⟩

theorem c9_amended_witness :
    ∃ v, (Except.ok (⟨"John".toList, ⟨3, 16⟩, none, none, .mask 8, "John".toList,
        some ("JHN".toList)⟩ : VerseRange) : Except Exc VerseRange) = Except.ok v :=
  (c9_amended ("John 3:16".toList) false).2 (by decide)
    (Except.ok ⟨"John".toList, ⟨3, 16⟩, none, none, .mask 8, "John".toList,
      some ("JHN".toList)⟩) (by decide)

/-- C10: when scanning with variant (c), a match that did not take the
bracket branch never carries a translation code: the `version` group lives
only inside the conditional that requires the `bracket` group to have
participated.  Concretely, scanning `"John 3:16 KJV"` yields one
`VerseRange` with `version = none`. -/
theorem c10_unbracketed_version :
    (∀ (s : List Char) (m : Nat × Caps × Nat),
        m ∈ scanMatches _reference_or_bracketed_with_version_re s →
        m.2.1.bracket = false → m.2.1.version = none) ∧
    VerseRange.get_all_from_string ("John 3:16 KJV".toList) false =
      [Except.ok ⟨"John".toList, ⟨3, 16⟩, none, none, .mask 8, "John".toList,
        some ("JHN".toList)⟩] := by
  constructor
  · intro s m hm hbf
    obtain ⟨_, _, _, rem1, hrun, _⟩ :=
      (scanMatchesAux_facts good_or_bracketed s (s.length + 1) 0).2 m hm
    exact runAt_unbracketed_version hrun hbf
  · decide

theorem c10_unbracketed_version_witness :
    ((0, (⟨"John".toList, ['3'], ['1', '6'], none, none, none, false⟩ : Caps), 9) :
      Nat × Caps × Nat).2.1.version = none :=
  c10_unbracketed_version.1 ("John 3:16 KJV".toList)
    (0, ⟨"John".toList, ['3'], ['1', '6'], none, none, none, false⟩, 9) (by decide) (by decide)

theorem kDollar_inv {rem1 : List Char} {caps1 caps : Caps} {rem : List Char}
    (h : kDollar rem1 caps1 = some (caps, rem)) : caps1 = caps ∧ rem1 = rem := by
  rw [kDollar] at h
  split at h
  · injection h with h
    rw [Prod.mk.injEq] at h
    exact ⟨h.1, h.2⟩
  · exact absurd h (by simp)

theorem inv_search_reference {s : List Char} {caps : Caps} {rem : List Char}
    (h : _search_reference_re s = some (caps, rem)) :
    bookCapOf caps.book s ∧ digitStr caps.chapter_start ∧
    digitStr caps.verse_start ∧
    (caps.chapter_end = none ∨ ∃ ds, caps.chapter_end = some ds ∧ digitStr ds) ∧
    (caps.verse_end = none ∨ ∃ ds, caps.verse_end = some ds ∧ digitStr ds) := by
  rw [_search_reference_re] at h
  obtain ⟨rem1, caps1, hk, _, hbook, hcs, hvs, hce, hve, _, _⟩ := inv_reference_re h
  obtain ⟨hc, hr⟩ := kDollar_inv hk
  subst hc
  exact ⟨hbook, hcs, hvs, hce, hve⟩

theorem inv_search_reference_with_version {s : List Char} {caps : Caps} {rem : List Char}
    (h : _search_reference_with_version_re s = some (caps, rem)) :
    bookCapOf caps.book s ∧ digitStr caps.chapter_start ∧
    digitStr caps.verse_start ∧
    (caps.chapter_end = none ∨ ∃ ds, caps.chapter_end = some ds ∧ digitStr ds) ∧
    (caps.verse_end = none ∨ ∃ ds, caps.verse_end = some ds ∧ digitStr ds) := by
  rw [_search_reference_with_version_re] at h
  obtain ⟨rem1, caps1, hk, _, hbook, hcs, hvs, hce, hve, _, _⟩ :=
    inv_reference_with_version h
  obtain ⟨hc, hr⟩ := kDollar_inv hk
  subst hc
  exact ⟨hbook, hcs, hvs, hce, hve⟩

/-- C4 counterexample: `from_string` accepts `"Genesis 1:1\n"` although
the reference grammar cannot consume that entire input — the `$` anchor
also matches just before a single final newline, so the claim's
\"if and only if the ENTIRE input matches\" fails. -/
theorem c4_counterexample :
    VerseRange.from_string ("Genesis 1:1\n".toList) =
      .ok ⟨"Genesis".toList, ⟨1, 1⟩, none, none, .mask 1, "Gen".toList,
        some ("GEN".toList)⟩ ∧
    runExact _reference_re ("Genesis 1:1\n".toList) = none :=
  ⟨by decide, by decide⟩

/-- C4 (amended): `from_string` returns a `VerseRange` if and only if the
anchored no-version pattern matches — consuming the entire input up to an
optional single trailing newline admitted by the `$` anchor — AND the
matched book token, lower-cased with `str.lower()`, resolves in the
registry.  On an anchored match whose book token does not resolve
(possible only through the engine's non-ASCII case equivalents, e.g.
`"Genesıs 1:1"`, whose `'ı'` matches literal `i` under `IGNORECASE` but
does not lower-case to it) it raises `BookNotUnderstood` carrying the
matched token; on every input the anchored pattern rejects it raises
`ReferenceNotUnderstood` carrying the input text; and every valid
`Book C:V` input whose book token is any dataset spelling in any ASCII
letter case yields the registry's book record for that token. -/
theorem c4_amended :
    (∀ s : List Char, (∃ r, VerseRange.from_string s = .ok r) ↔
      ∃ p, _search_reference_re s = some p ∧
        (dget _book_data_map (lcs p.1.book)).isSome = true) ∧
    (∀ s : List Char, ∀ p : Caps × List Char, _search_reference_re s = some p →
      dget _book_data_map (lcs p.1.book) = none →
      VerseRange.from_string s = .error (.bookNotUnderstood p.1.book)) ∧
    (∀ s : List Char, _search_reference_re s = none →
      VerseRange.from_string s = .error (.referenceNotUnderstood s)) ∧
    VerseRange.from_string ("Genesıs 1:1".toList) =
      .error (.bookNotUnderstood ("Genesıs".toList)) ∧
    (∀ u t ds1 ds2 nl : List Char, t ∈ allBookLits → lcs u = lcs t → digitStr ds1 →
      digitStr ds2 → (nl = [] ∨ nl = ['\n']) →
      ∃ b, dget _book_data_map (lcs t) = some b ∧
        VerseRange.from_string (u ++ ' ' :: (ds1 ++ ':' :: (ds2 ++ nl))) =
          .ok ⟨b.name, ⟨parseNat ds1, parseNat ds2⟩, none, none, b.section_, b.osis,
            b.paratext⟩) := by
  refine ⟨?_, ?_, ?_, by decide, ?_⟩
  · intro s
    constructor
    · intro hex
      obtain ⟨r, hr⟩ := hex
      cases hq : _search_reference_re s with
      | none =>
        rw [from_string_of_none hq] at hr
        exact absurd hr (by simp)
      | some pr =>
        obtain ⟨caps, rem⟩ := pr
        rw [from_string_of_search hq] at hr
        exact ⟨(caps, rem), rfl, from_match_ok_lookup hr⟩
    · intro hs
      obtain ⟨p, hq, hb⟩ := hs
      obtain ⟨caps, rem⟩ := p
      obtain ⟨v, hv⟩ := from_match_ok hb
      exact ⟨v, by rw [from_string_of_search hq, hv]⟩
  · intro s p hq hnone
    obtain ⟨caps, rem⟩ := p
    rw [from_string_of_search hq, from_match_err hnone]
  · exact fun s h => from_string_of_none h
  · intro u t ds1 ds2 nl ht hu h1 h2 hnl
    have hl := allBookLits_lookup t ht
    cases hq : dget _book_data_map (lcs t) with
    | none =>
      rw [hq] at hl
      exact absurd hl (by simp)
    | some b =>
      refine ⟨b, rfl, ?_⟩
      have hbu : dget _book_data_map (lcs u) = some b := by
        rw [hu, hq]
      rw [from_string_of_search (search_reference_ok_plain ht hu h1 h2 hnl),
        from_match_plain hbu]

theorem c4_amended_witness :
    ∃ b, dget _book_data_map (lcs ("Gen".toList)) = some b ∧
      VerseRange.from_string ("GEN".toList ++ ' ' :: (['3'] ++ ':' :: (['1', '6'] ++ []))) =
        .ok ⟨b.name, ⟨parseNat ['3'], parseNat ['1', '6']⟩, none, none, b.section_, b.osis,
          b.paratext⟩ :=
  c4_amended.2.2.2.2 ("GEN".toList) ("Gen".toList) ['3'] ['1', '6'] [] (by decide) (by decide)
    ⟨by decide, by decide⟩ ⟨by decide, by decide⟩ (Or.inl rfl)

theorem from_match_fields {caps : Caps} {r : VerseRange}
    (h : VerseRange.from_match caps = .ok r) :
    r.start.chapter = parseNat caps.chapter_start ∧
    r.start.verse = parseNat caps.verse_start ∧
    (caps.verse_end = none → r.end_ = none) ∧
    (∀ es, caps.verse_end = some es →
      r.end_ = some ⟨(match caps.chapter_end with
        | none => parseNat caps.chapter_start
        | some cs => parseNat cs), parseNat es⟩) := by
  simp only [VerseRange.from_match, VerseRange.create] at h
  cases hg : get_book_data caps.book with
  | error e =>
    rw [hg] at h
    exact absurd h (by simp)
  | ok d =>
    rw [hg] at h
    injection h with h
    subst h
    refine ⟨rfl, rfl, ?_, ?_⟩
    · intro hv
      simp only [hv]
    · intro es hv
      simp only [hv]

theorem c8_core {caps : Caps} {r : VerseRange} (hm : VerseRange.from_match caps = .ok r)
    (hcs : digitStr caps.chapter_start) (hvs : digitStr caps.verse_start)
    (hce : caps.chapter_end = none ∨ ∃ ds, caps.chapter_end = some ds ∧ digitStr ds)
    (hve : caps.verse_end = none ∨ ∃ ds, caps.verse_end = some ds ∧ digitStr ds) :
    (∃ ds, digitStr ds ∧ r.start.chapter = parseNat ds) ∧
    (∃ ds, digitStr ds ∧ r.start.verse = parseNat ds) ∧
    ∀ e, r.end_ = some e →
      (∃ ds, digitStr ds ∧ e.chapter = parseNat ds) ∧
      (∃ ds, digitStr ds ∧ e.verse = parseNat ds) := by
  obtain ⟨h1, h2, h3, h4⟩ := from_match_fields hm
  refine ⟨⟨_, hcs, h1⟩, ⟨_, hvs, h2⟩, ?_⟩
  intro e he
  rcases hve with hv | ⟨es, hv, hesd⟩
  · rw [h3 hv] at he
    exact absurd he (by simp)
  · rw [h4 es hv] at he
    injection he with he
    subst he
    rcases hce with hc | ⟨cs2, hc, hcsd⟩
    · refine ⟨⟨_, hcs, ?_⟩, ⟨_, hesd, rfl⟩⟩
      simp only [hc]
    · refine ⟨⟨_, hcsd, ?_⟩, ⟨_, hesd, rfl⟩⟩
      simp only [hc]

theorem from_string_ok_inv {s : List Char} {r : VerseRange}
    (h : VerseRange.from_string s = .ok r) :
    ∃ caps rem, _search_reference_re s = some (caps, rem) ∧
      VerseRange.from_match caps = .ok r := by
  rw [VerseRange.from_string] at h
  cases hq : _search_reference_re s with
  | none =>
    rw [hq] at h
    exact absurd h (by simp)
  | some pr =>
    obtain ⟨caps, rem⟩ := pr
    rw [hq] at h
    exact ⟨caps, rem, rfl, h⟩

theorem from_string_with_version_ok_inv {s : List Char} {r : VerseRange}
    (h : VerseRange.from_string_with_version s = .ok r) :
    ∃ caps rem, _search_reference_with_version_re s = some (caps, rem) ∧
      VerseRange.from_match caps = .ok r := by
  rw [VerseRange.from_string_with_version] at h
  cases hq : _search_reference_with_version_re s with
  | none =>
    rw [hq] at h
    exact absurd h (by simp)
  | some pr =>
    obtain ⟨caps, rem⟩ := pr
    rw [hq] at h
    exact ⟨caps, rem, rfl, h⟩

theorem runAt_scan_caps {ob : Bool} {s : List Char} {pos : Nat} {caps : Caps}
    {rem1 : List Char} (h : runAt (lookup_pattern ob) s pos = some (caps, rem1)) :
    digitStr caps.chapter_start ∧ digitStr caps.verse_start ∧
    (caps.chapter_end = none ∨ ∃ ds, caps.chapter_end = some ds ∧ digitStr ds) ∧
    (caps.verse_end = none ∨ ∃ ds, caps.verse_end = some ds ∧ digitStr ds) := by
  rw [runAt] at h
  cases ob with
  | false =>
    obtain ⟨rem', caps', hk, _, _, hcs, hvs, hce, hve, _⟩ := inv_or_bracketed h
    rw [kAny] at hk
    injection hk with hk
    injection hk with hk1 hk2
    subst hk1
    subst hk2
    exact ⟨hcs, hvs, hce, hve⟩
  | true =>
    obtain ⟨rem', caps', hk, _, _, hcs, hvs, hce, hve⟩ := inv_bracketed h
    rw [kAny] at hk
    injection hk with hk
    injection hk with hk1 hk2
    subst hk1
    subst hk2
    exact ⟨hcs, hvs, hce, hve⟩

/-- C8 (amended): every `Verse` held in a `VerseRange` produced by any
parsing entry point has chapter and verse equal to the numeric value of a
nonempty decimal-digit capture — nonnegative, but possibly zero, so strict
positivity does not hold (see the counterexample). -/
theorem c8_amended (s : List Char) (ob : Bool) (r : VerseRange)
    (h : VerseRange.from_string s = .ok r ∨ VerseRange.from_string_with_version s = .ok r ∨
      Except.ok r ∈ VerseRange.get_all_from_string s ob) :
    (∃ ds, digitStr ds ∧ r.start.chapter = parseNat ds) ∧
    (∃ ds, digitStr ds ∧ r.start.verse = parseNat ds) ∧
    ∀ e, r.end_ = some e →
      (∃ ds, digitStr ds ∧ e.chapter = parseNat ds) ∧
      (∃ ds, digitStr ds ∧ e.verse = parseNat ds) := by
  rcases h with h | h | h
  · obtain ⟨caps, rem, hq, hm⟩ := from_string_ok_inv h
    obtain ⟨_, hcs, hvs, hce, hve⟩ := inv_search_reference hq
    exact c8_core hm hcs hvs hce hve
  · obtain ⟨caps, rem, hq, hm⟩ := from_string_with_version_ok_inv h
    obtain ⟨_, hcs, hvs, hce, hve⟩ := inv_search_reference_with_version hq
    exact c8_core hm hcs hvs hce hve
  · rw [getAll_eq_scan] at h
    obtain ⟨m, hm, hmap⟩ := List.mem_map.mp h
    obtain ⟨_, _, _, rem1, hrun, _⟩ :=
      (scanMatchesAux_facts (good_lookup ob) s (s.length + 1) 0).2 m hm
    obtain ⟨hcs, hvs, hce, hve⟩ := runAt_scan_caps hrun
    exact c8_core hmap hcs hvs hce hve

theorem c8_amended_witness :
    (∃ ds, digitStr ds ∧
      (⟨"John".toList, ⟨0, 1⟩, none, none, .mask 8, "John".toList,
        some ("JHN".toList)⟩ : VerseRange).start.chapter = parseNat ds) ∧
    (∃ ds, digitStr ds ∧
      (⟨"John".toList, ⟨0, 1⟩, none, none, .mask 8, "John".toList,
        some ("JHN".toList)⟩ : VerseRange).start.verse = parseNat ds) ∧
    ∀ e, (⟨"John".toList, ⟨0, 1⟩, none, none, .mask 8, "John".toList,
        some ("JHN".toList)⟩ : VerseRange).end_ = some e →
      (∃ ds, digitStr ds ∧ e.chapter = parseNat ds) ∧
      (∃ ds, digitStr ds ∧ e.verse = parseNat ds) :=
  c8_amended ("John 0:1".toList) false
    ⟨"John".toList, ⟨0, 1⟩, none, none, .mask 8, "John".toList, some ("JHN".toList)⟩
    (Or.inl (by decide))

/-- On an ordering where no literal precedes a longer literal it is a
proper case-insensitive prefix of, the ordered alternation over
letters-only literals always matches a longest literal that is a prefix of
the input at the position.  (The letters-only proviso matters: the
engine's case equivalence is not transitive through non-ASCII literal
characters.) -/
theorem peitherLits_longest : ∀ (lits : List (List Char)), OrderOK lits →
    (∀ l ∈ lits, lettersOnly l) →
    ∀ (rem : List Char) (caps : Caps) (res : Caps × List Char),
      peitherLits lits rem caps kAny = some res →
      ∃ l ∈ lits, ciPre l rem ∧ res = (caps, rem.drop l.length) ∧
        ∀ l' ∈ lits, ciPre l' rem → l'.length ≤ l.length := by
  intro lits
  induction lits with
  | nil =>
    intro _ _ rem caps res h
    exact absurd h (by simp [peitherLits])
  | cons l ls ih =>
    intro hord hlet rem caps res h
    obtain ⟨hl, hls⟩ := List.pairwise_cons.mp hord
    rw [peitherLits, plit_eq] at h
    by_cases hC : ciPreB l rem = true
    · rw [if_pos hC] at h
      have hres : res = (caps, rem.drop l.length) := by
        rw [show kAny (rem.drop l.length) caps = some (caps, rem.drop l.length) from rfl,
          ores_some] at h
        injection h with h
        exact h.symm
      refine ⟨l, by simp, hC, hres, ?_⟩
      intro l' hl' hpre
      rcases List.mem_cons.mp hl' with he | he
      · subst he
        exact Nat.le_refl _
      · by_contra hlt
        have hll : l.length < l'.length := by omega
        refine hl l' he ⟨?_, hll⟩
        exact ciPreB_of_both (hlet l (by simp)) (hlet l' (by simp [he])) hC hpre (by omega)
    · rw [if_neg hC, ores_none] at h
      obtain ⟨l2, hl2, hpre2, hres, hmax⟩ :=
        ih hls (fun x hx => hlet x (by simp [hx])) rem caps res h
      refine ⟨l2, by simp [hl2], hpre2, hres, ?_⟩
      intro l' hl' hpre
      rcases List.mem_cons.mp hl' with he | he
      · subst he
        exact absurd hpre hC
      · exact hmax l' he hpre

/-- C6: the alternation source is deduplicated preserving first-seen order
(`unique_everseen`), the modelled dataset ordering never lists a literal
before a longer literal it is a case-insensitive prefix of (`ciPre`, the
engine's `IGNORECASE` prefix relation), and under that ordering the
book-token alternation over letters-only literals never matches a shorter
literal when a longer literal is also a textual prefix of the input at the
same position. -/
theorem c6_longest_match :
    OrderOK allBookLits ∧
    (∀ (lits : List (List Char)), OrderOK lits → (∀ l ∈ lits, lettersOnly l) →
      ∀ (rem : List Char) (caps : Caps) (res : Caps × List Char),
        peitherLits lits rem caps kAny = some res →
        ∃ l ∈ lits, ciPre l rem ∧ res = (caps, rem.drop l.length) ∧
          ∀ l' ∈ lits, ciPre l' rem → l'.length ≤ l.length) ∧
    (∀ (rem : List Char) (res : Caps × List Char), bookTokenMatch rem = some res →
      ∃ l ∈ allBookLits, ciPre l rem ∧
        ∀ l' ∈ allBookLits, ciPre l' rem → l'.length ≤ l.length) ∧
    allBookLits = uniqueEverseen allBookInputs ∧
    allBookLits.Nodup ∧ List.Sublist allBookLits allBookInputs ∧
    ∀ x ∈ allBookInputs, x ∈ allBookLits := by
  refine ⟨by decide, peitherLits_longest, ?_, rfl, by decide, by decide, by decide⟩
  intro rem res h
  obtain ⟨l, hl, hpre, _, hmax⟩ :=
    peitherLits_longest allBookLits (by decide) allBookLits_letters rem {} res h
  exact ⟨l, hl, hpre, hmax⟩

theorem c6_longest_match_witness :
    ∃ l ∈ allBookLits, ciPre l ("Genesis 1:1".toList) ∧
      ∀ l' ∈ allBookLits, ciPre l' ("Genesis 1:1".toList) → l'.length ≤ l.length :=
  c6_longest_match.2.2.1 ("Genesis 1:1".toList) ({}, " 1:1".toList) (by decide)

theorem gbm_eval (m : Nat) : get_books_for_mask m =
    (if m &&& 1 ≠ 0 then [genesisEntry] else []) ++
    (if m &&& 2 ≠ 0 then [matthewEntry] else []) ++
    _books_data.filter (fun b =>
      match b.section_ with
      | .dc => false
      | .mask v => if v = 1 || v = 2 then false else m &&& v != 0) := by
  have hg : (dget _book_data_map ("genesis".toList)).toList = [genesisEntry] := by decide
  have hm2 : (dget _book_data_map ("matthew".toList)).toList = [matthewEntry] := by decide
  rw [get_books_for_mask, hg, hm2]

theorem filter_eval (m : Nat) :
    _books_data.filter (fun b =>
      match b.section_ with
      | .dc => false
      | .mask v => if v = 1 || v = 2 then false else m &&& v != 0) =
    (if m &&& 4 ≠ 0 then [exodusEntry] else []) ++
    (if m &&& 8 ≠ 0 then [johnEntry] else []) := by
  have hsimp : ∀ (v : Nat), (m &&& v = 0) → (m &&& v != 0) = false := by
    intro v hv
    simp [hv]
  have hsimp2 : ∀ (v : Nat), ¬(m &&& v = 0) → (m &&& v != 0) = true := by
    intro v hv
    exact bne_iff_ne.mpr hv
  by_cases h4 : m &&& 4 = 0
  · by_cases h8 : m &&& 8 = 0
    · rw [if_neg (by omega), if_neg (by omega)]
      simp [_books_data, List.filter, genesisEntry, exodusEntry, matthewEntry,
        johnEntry, tobitEntry, hsimp 4 h4, hsimp 8 h8]
    · rw [if_neg (by omega), if_pos h8]
      simp [_books_data, List.filter, genesisEntry, exodusEntry, matthewEntry,
        johnEntry, tobitEntry, hsimp 4 h4, hsimp2 8 h8]
  · by_cases h8 : m &&& 8 = 0
    · rw [if_pos h4, if_neg (by omega)]
      simp [_books_data, List.filter, genesisEntry, exodusEntry, matthewEntry,
        johnEntry, tobitEntry, hsimp2 4 h4, hsimp 8 h8]
    · rw [if_pos h4, if_pos h8]
      simp [_books_data, List.filter, genesisEntry, exodusEntry, matthewEntry,
        johnEntry, tobitEntry, hsimp2 4 h4, hsimp2 8 h8]

theorem mem_ite_singleton (c : Prop) [Decidable c] (x b : BookDict) :
    (b ∈ if c then [x] else []) ↔ c ∧ b = x := by
  split <;> simp_all

theorem generic_scan_iff (m : Nat) (b : BookDict) :
    (b ∈ _books_data ∧ ∃ v, b.section_ = .mask v ∧ v ≠ 1 ∧ v ≠ 2 ∧ m &&& v ≠ 0) ↔
    (m &&& 4 ≠ 0 ∧ b = exodusEntry) ∨ (m &&& 8 ≠ 0 ∧ b = johnEntry) := by
  constructor
  · rintro ⟨hb, v, hv, h1, h2, hm⟩
    have hb5 : b = genesisEntry ∨ b = exodusEntry ∨ b = matthewEntry ∨ b = johnEntry ∨
        b = tobitEntry := by
      simpa [_books_data] using hb
    rcases hb5 with h | h | h | h | h <;> subst h
    · injection hv with hv
      omega
    · injection hv with hv
      subst hv
      exact Or.inl ⟨hm, rfl⟩
    · injection hv with hv
      omega
    · injection hv with hv
      subst hv
      exact Or.inr ⟨hm, rfl⟩
    · exact absurd hv (by simp [tobitEntry])
  · rintro (⟨hm4, hb⟩ | ⟨hm8, hb⟩) <;> subst hb
    · exact ⟨by simp [_books_data], 4, rfl, by omega, by omega, hm4⟩
    · exact ⟨by simp [_books_data], 8, rfl, by omega, by omega, hm8⟩

/-- C7: `get_books_for_mask` yields the first Old Testament book iff bit
`1` of the mask is set and the first New Testament book iff bit `2` is
set; it otherwise yields, in dataset order, exactly the books whose
section value is neither `1` nor `2` nor `DC` and whose section bits
intersect the mask; a `DC` book is never yielded; and the mask `3` yields
exactly those two first books with no duplicates. -/
theorem c7_section_mask (m : Nat) :
    (genesisEntry ∈ get_books_for_mask m ↔ m &&& 1 ≠ 0) ∧
    (matthewEntry ∈ get_books_for_mask m ↔ m &&& 2 ≠ 0) ∧
    (∀ b, b ∈ get_books_for_mask m ↔
      (m &&& 1 ≠ 0 ∧ b = genesisEntry) ∨ (m &&& 2 ≠ 0 ∧ b = matthewEntry) ∨
      (b ∈ _books_data ∧ ∃ v, b.section_ = .mask v ∧ v ≠ 1 ∧ v ≠ 2 ∧ m &&& v ≠ 0)) ∧
    (∀ b ∈ get_books_for_mask m, b.section_ ≠ .dc) ∧
    get_books_for_mask 3 = [genesisEntry, matthewEntry] ∧
    (get_books_for_mask 3).Nodup := by
  have hmem : ∀ b, b ∈ get_books_for_mask m ↔
      (m &&& 1 ≠ 0 ∧ b = genesisEntry) ∨ (m &&& 2 ≠ 0 ∧ b = matthewEntry) ∨
      (m &&& 4 ≠ 0 ∧ b = exodusEntry) ∨ (m &&& 8 ≠ 0 ∧ b = johnEntry) := by
    intro b
    rw [gbm_eval, filter_eval]
    simp only [List.mem_append, mem_ite_singleton]
    tauto
  refine ⟨?_, ?_, ?_, ?_, by decide, by decide⟩
  · rw [hmem]
    have hne : genesisEntry ≠ matthewEntry ∧ genesisEntry ≠ exodusEntry ∧
        genesisEntry ≠ johnEntry := by decide
    constructor
    · rintro (⟨h, _⟩ | ⟨_, h⟩ | ⟨_, h⟩ | ⟨_, h⟩)
      · exact h
      · exact absurd h hne.1
      · exact absurd h hne.2.1
      · exact absurd h hne.2.2
    · intro h
      exact Or.inl ⟨h, rfl⟩
  · rw [hmem]
    have hne : matthewEntry ≠ genesisEntry ∧ matthewEntry ≠ exodusEntry ∧
        matthewEntry ≠ johnEntry := by decide
    constructor
    · rintro (⟨_, h⟩ | ⟨h, _⟩ | ⟨_, h⟩ | ⟨_, h⟩)
      · exact absurd h hne.1
      · exact h
      · exact absurd h hne.2.1
      · exact absurd h hne.2.2
    · intro h
      exact Or.inr (Or.inl ⟨h, rfl⟩)
  · intro b
    rw [hmem, generic_scan_iff]
  · intro b hb
    rw [hmem] at hb
    rcases hb with ⟨_, h⟩ | ⟨_, h⟩ | ⟨_, h⟩ | ⟨_, h⟩ <;> subst h <;>
      simp [genesisEntry, matthewEntry, exodusEntry, johnEntry]

theorem c7_section_mask_witness : genesisEntry.section_ ≠ BookSection.dc :=
  (c7_section_mask 3).2.2.2.1 genesisEntry (by decide)

end Erasmus
